import Mathlib

/-!
# leansdr `dsp.h`: a shallow embedding and its verified properties

The DSP blocks of `src/leansdr/dsp.h` are embedded as Lean functions.

* Arrays and buffer storage reached through a C pointer are functions
  `Nat → T` (the cell at each index); a store `p[i] = v` is
  `Function.update p i v`.
* Counted `for` loops are `forLoop n body s`, which runs `body 0`, `body 1`,
  ..., `body (n-1)` in that order, threading the state `s`.
* `int` sizes and indices are natural numbers: the embedding covers the
  non-negative sizes within the range of `int`, where the C arithmetic on them
  does not wrap.
* Scalar types (`T`, `Tin`, `Tout`, `float`) are type parameters; the exact
  arithmetic results instantiate them with fields (`ℚ`, `ℝ`).
* The functions of `<math.h>` used by the code (`sqrt`, `cosf`, `sinf`, `M_PI`)
  are parameters of the definitions that call them.
-/

namespace leansdr

/-! ## Loops -/

/-- The loop `for (i = 0; i < n; ++i) s = body i s`. -/
def forLoop {σ : Type} (n : Nat) (body : Nat → σ → σ) (s : σ) : σ :=
  match n with
  | 0 => s
  | k + 1 => body k (forLoop k body s)

/-! ## `min` and `complex` -/

/-- Source: `template<typename T> T min(const T &x, const T &y)`. -/
def min {T : Type} [LT T] [DecidableRel (fun (a b : T) => a < b)] (x y : T) : T :=
  if x < y then x else y

/-- Source: `template<typename T> struct complex`, fields `re`, `im`. -/
structure complex (T : Type) where
  re : T
  im : T

/-- Source: the constructor `complex(T x) : re(x), im(0)`. -/
def complex.ofScalar {T : Type} [Zero T] (x : T) : complex T := ⟨x, 0⟩

/-- Source: `operator +(const complex<T> &a, const complex<T> &b)`. -/
def complex.add {T : Type} [Add T] (a b : complex T) : complex T :=
  ⟨a.re + b.re, a.im + b.im⟩

/-- Source: `operator *(const complex<T> &a, const T &k)`. -/
def complex.smul {T : Type} [Mul T] (a : complex T) (k : T) : complex T :=
  ⟨a.re * k, a.im * k⟩

instance {T : Type} [Add T] : Add (complex T) := ⟨complex.add⟩

instance {T : Type} [Mul T] : HMul (complex T) T (complex T) := ⟨complex.smul⟩

instance {T : Type} [Zero T] : Zero (complex T) := ⟨complex.ofScalar 0⟩

/-! ## The stream buffer -/

/-- Modelled from the spec: the stream buffer behind `pipebuf`, `pipereader`
and `pipewriter`, which `dsp.h` uses but does not declare (spec sections 3 and
6). `mem` is the storage, `rpos` the read cursor, `wpos` the write cursor and
`cap` the capacity bound; the in-flight data is `mem[rpos .. wpos)` and the
free space is `mem[wpos .. cap)`. -/
structure pipebuf (T : Type) where
  mem : Nat → T
  rpos : Nat
  wpos : Nat
  cap : Nat

/-- Modelled from the spec: `readable()`, the number of elements available
from the read cursor. -/
def pipebuf.readable {T : Type} (b : pipebuf T) : Nat := b.wpos - b.rpos

/-- Modelled from the spec: `rd()`, the start of the readable region (an index
into `mem`). -/
def pipebuf.rd {T : Type} (b : pipebuf T) : Nat := b.rpos

/-- Modelled from the spec: `read(n)` advances the read cursor by `n`. -/
def pipebuf.read {T : Type} (b : pipebuf T) (n : Nat) : pipebuf T :=
  ⟨b.mem, b.rpos + n, b.wpos, b.cap⟩

/-- Modelled from the spec: `writable()`, the free space from the write
cursor. -/
def pipebuf.writable {T : Type} (b : pipebuf T) : Nat := b.cap - b.wpos

/-- Modelled from the spec: `wr()`, the start of the writable region (an index
into `mem`). -/
def pipebuf.wr {T : Type} (b : pipebuf T) : Nat := b.wpos

/-- Modelled from the spec: `written(n)` commits `n` elements, advancing the
write cursor by `n`. -/
def pipebuf.written {T : Type} (b : pipebuf T) (n : Nat) : pipebuf T :=
  ⟨b.mem, b.rpos, b.wpos + n, b.cap⟩

/-- The storage of a buffer replaced (the effect of stores through `wr()`). -/
def pipebuf.withMem {T : Type} (b : pipebuf T) (m : Nat → T) : pipebuf T :=
  ⟨m, b.rpos, b.wpos, b.cap⟩

/-! ## `cconverter` -/

/-- Source: `struct cconverter`, its input reader and output writer. -/
structure cconverter (Tin Tout : Type) where
  inp : pipebuf (complex Tin)
  out : pipebuf (complex Tout)

/-- Source: `cconverter::run`. `cast` is the conversion `(Tout)` applied to an
input component; `Zin Zout Gn Gd` are the `int` template parameters. The loop
`for ( ; pin<pend; ++pin,++pout )` runs `count` times with `pin = in.rd() + i`
and `pout = out.wr() + i` in iteration `i`. -/
def cconverter.run {Tin Tout : Type} [Add Tout] [Sub Tout] [Mul Tout] [Div Tout]
    [IntCast Tout] (cast : Tin → Tout) (Zin Zout Gn Gd : Int)
    (c : cconverter Tin Tout) : cconverter Tin Tout :=
  let count := min c.inp.readable c.out.writable
  let pin := c.inp.rd
  let pout := c.out.wr
  let mem := forLoop count (fun i m =>
    let m1 := Function.update m (pout + i)
      ⟨(Zout : Tout) + (cast (c.inp.mem (pin + i)).re - (Zin : Tout)) * (Gn : Tout) / (Gd : Tout),
        (m (pout + i)).im⟩
    Function.update m1 (pout + i)
      ⟨(m1 (pout + i)).re,
        (Zout : Tout) + (cast (c.inp.mem (pin + i)).im - (Zin : Tout)) * (Gn : Tout) / (Gd : Tout)⟩)
    c.out.mem
  ⟨c.inp.read count, (c.out.withMem mem).written count⟩

/-- A value of the C type `int`, taken without overflow. Addition, subtraction
and multiplication are those of the integers; `/` is the C division, which
truncates toward zero. -/
structure cint where
  val : Int

instance : Add cint := ⟨fun a b => ⟨a.val + b.val⟩⟩

instance : Sub cint := ⟨fun a b => ⟨a.val - b.val⟩⟩

instance : Mul cint := ⟨fun a b => ⟨a.val * b.val⟩⟩

instance : Div cint := ⟨fun a b => ⟨Int.tdiv a.val b.val⟩⟩

instance : IntCast cint := ⟨fun z => ⟨z⟩⟩

/-! ## `cfft_engine` -/

/-- Source: `struct cfft_engine`: the size, `logn`, and the three tables. -/
structure cfft_engine (T : Type) where
  n : Nat
  logn : Nat
  bitrev : Nat → Nat
  omega : Nat → complex T
  omega_rev : Nat → complex T
  invsqrtn : T

/-- Source: `for ( int t=n; t>1; t>>=1 ) ++logn;` as a recursion on `t`. -/
def log2_loop (t logn : Nat) : Nat :=
  if 1 < t then log2_loop (t >>> 1) (logn + 1) else logn
termination_by t
decreasing_by
  simp only [Nat.shiftRight_eq_div_pow]
  omega

/-- Source: the constructor `cfft_engine::cfft_engine(int _n)` (named `ctor`, as
the structure occupies the name). The cells of a table before its first store
hold an unspecified value, here zero; cells at and above `n` are never
written. -/
def cfft_engine.ctor {T : Type} [Field T] (sqrt cosf sinf : T → T) (M_PI : T)
    (_n : Nat) : cfft_engine T :=
  let n := _n
  let invsqrtn : T := 1 / sqrt (n : T)
  let logn := log2_loop n 0
  let bitrev := forLoop n (fun i br =>
    forLoop logn (fun b br =>
      Function.update br i (((br i) <<< 1) ||| ((i >>> b) &&& 1)))
      (Function.update br i 0)) (fun _ => 0)
  let tables := forLoop n (fun i (om : (Nat → complex T) × (Nat → complex T)) =>
    let a : T := 2 * M_PI * (i : T) / (n : T)
    let omega1 := Function.update om.1 i ⟨cosf a, (om.1 i).im⟩
    let omega_rev1 := Function.update om.2 i ⟨(omega1 i).re, (om.2 i).im⟩
    let omega2 := Function.update omega1 i ⟨(omega1 i).re, sinf a⟩
    let omega_rev2 := Function.update omega_rev1 i ⟨(omega_rev1 i).re, - (omega2 i).im⟩
    (omega2, omega_rev2)) (fun _ => ⟨0, 0⟩, fun _ => ⟨0, 0⟩)
  ⟨n, logn, bitrev, tables.1, tables.2, invsqrtn⟩

/-- Outcome of constructing an engine: the constructor body contains no size
test and no failure path, so every size yields an engine. -/
def cfft_engine.construct {T : Type} [Field T] (sqrt cosf sinf : T → T) (M_PI : T)
    (_n : Nat) : Option (cfft_engine T) :=
  some (cfft_engine.ctor sqrt cosf sinf M_PI _n)

/-- Source: the body of the innermost loop of `cfft_engine::inplace`, for the
twiddle table `om`, block bounds `p`, `q`, stride `dom` and offset `k`. -/
def cfft_engine.butterfly {T : Type} [Field T] (om : Nat → complex T) (p q dom k : Nat)
    (data : Nat → complex T) : Nat → complex T :=
  let w := om (k * dom)
  let dqk := data (q + k)
  let x : complex T := ⟨w.re * dqk.re - w.im * dqk.im, w.re * dqk.im + w.im * dqk.re⟩
  let data1 := Function.update data (q + k) ⟨(data (p + k)).re - x.re, (data (q + k)).im⟩
  let data2 := Function.update data1 (q + k) ⟨(data1 (q + k)).re, (data1 (p + k)).im - x.im⟩
  let data3 := Function.update data2 (p + k) ⟨(data2 (p + k)).re + x.re, (data2 (p + k)).im⟩
  Function.update data3 (p + k) ⟨(data3 (p + k)).re, (data3 (p + k)).im + x.im⟩

/-- Source: the first loop of `cfft_engine::inplace` (bit-reversal
permutation). -/
def cfft_engine.permute {T : Type} (e : cfft_engine T) (data : Nat → complex T) :
    Nat → complex T :=
  forLoop e.n (fun i data =>
    let r := e.bitrev i
    if r < i then
      let tmp := data i
      let data1 := Function.update data i (data r)
      Function.update data1 r tmp
    else data) data

/-- Source: the control flow of the first loop of `cfft_engine::inplace`: the
swaps `(i, r)` the loop performs, in the order it performs them. -/
def cfft_engine.permute_swaps {T : Type} (e : cfft_engine T) : List (Nat × Nat) :=
  forLoop e.n (fun i log =>
    let r := e.bitrev i
    if r < i then log ++ [(i, r)] else log) []

/-- Source: the Danielson-Lanczos loops of `cfft_engine::inplace`. -/
def cfft_engine.stages {T : Type} [Field T] (e : cfft_engine T) (om : Nat → complex T)
    (data : Nat → complex T) : Nat → complex T :=
  forLoop e.logn (fun i data =>
    let hbs := 1 <<< i
    let dom := 1 <<< (e.logn - 1 - i)
    forLoop dom (fun j data =>
      let p := j * hbs * 2
      let q := p + hbs
      forLoop hbs (fun k data => cfft_engine.butterfly om p q dom k data) data) data) data

/-- Source: the final loop of `cfft_engine::inplace` (scaling by `1.0 / n`). -/
def cfft_engine.scale {T : Type} [Field T] (e : cfft_engine T) (data : Nat → complex T) :
    Nat → complex T :=
  let invn : T := 1 / (e.n : T)
  forLoop e.n (fun i data =>
    let data1 := Function.update data i ⟨(data i).re * invn, (data i).im⟩
    Function.update data1 i ⟨(data1 i).re, (data1 i).im * invn⟩) data

/-- Source: `cfft_engine::inplace(complex<T> *data, bool reverse)`. -/
def cfft_engine.inplace {T : Type} [Field T] (e : cfft_engine T) (data : Nat → complex T)
    (reverse : Bool) : Nat → complex T :=
  let data1 := e.permute data
  let om := if reverse then e.omega_rev else e.omega
  let data2 := e.stages om data1
  e.scale data2

/-- Source: the cells of `bitrev`, `omega` and `omega_rev` (each of length `n`)
that the constructor accesses, in order: `bitrev[i]` in the table loop and its
inner loop, then `omega[i]` and `omega_rev[i]`. -/
def cfft_engine.ctor_indices (_n : Nat) : List Nat :=
  let n := _n
  let logn := log2_loop n 0
  let acc1 := forLoop n (fun i acc =>
    forLoop logn (fun _ acc => acc ++ [i]) (acc ++ [i])) []
  forLoop n (fun i acc => acc ++ [i, i]) acc1

/-- Source: the cells of `data` that `cfft_engine::inplace` accesses, in order:
`data[i]`, `data[r]` for each swap, `data[q+k]`, `data[p+k]` for each butterfly,
`data[i]` in the scaling loop. -/
def cfft_engine.data_indices {T : Type} (e : cfft_engine T) : List Nat :=
  let acc1 := forLoop e.n (fun i acc =>
    let r := e.bitrev i
    if r < i then acc ++ [i, r] else acc) []
  let acc2 := forLoop e.logn (fun i acc =>
    let hbs := 1 <<< i
    let dom := 1 <<< (e.logn - 1 - i)
    forLoop dom (fun j acc =>
      let p := j * hbs * 2
      let q := p + hbs
      forLoop hbs (fun k acc => acc ++ [q + k, p + k]) acc) acc) acc1
  forLoop e.n (fun i acc => acc ++ [i]) acc2

/-- Source: the cells of the tables that `cfft_engine::inplace` accesses, in
order: `bitrev[i]` in the permutation loop, then `om[k*dom]` for each
butterfly. -/
def cfft_engine.table_indices {T : Type} (e : cfft_engine T) : List Nat :=
  let acc1 := forLoop e.n (fun i acc => acc ++ [i]) []
  forLoop e.logn (fun i acc =>
    let hbs := 1 <<< i
    let dom := 1 <<< (e.logn - 1 - i)
    forLoop dom (fun _ acc =>
      forLoop hbs (fun k acc => acc ++ [k * dom]) acc) acc) acc1

/-! ## `adder` -/

/-- Source: `struct adder`, its two readers and its writer. -/
structure adder (T : Type) where
  in1 : pipebuf T
  in2 : pipebuf T
  out : pipebuf T

/-- Source: `adder::run`. The loop `while ( pout < pend )` runs `n` times with
`pin1 = in1.rd() + i`, `pin2 = in2.rd() + i`, `pout = out.wr() + i`. -/
def adder.run {T : Type} [Add T] (a : adder T) : adder T :=
  let n := a.out.writable
  let n := if a.in1.readable < n then a.in1.readable else n
  let n := if a.in2.readable < n then a.in2.readable else n
  let pin1 := a.in1.rd
  let pin2 := a.in2.rd
  let pout := a.out.wr
  let mem := forLoop n (fun i m =>
    Function.update m (pout + i) (a.in1.mem (pin1 + i) + a.in2.mem (pin2 + i))) a.out.mem
  ⟨a.in1.read n, a.in2.read n, (a.out.withMem mem).written n⟩

/-! ## `naive_lowpass` -/

/-- Source: `struct naive_lowpass`, the window width and the two buffers. -/
structure naive_lowpass (T : Type) where
  w : Nat
  inp : pipebuf T
  out : pipebuf T

/-- Source: `naive_lowpass::run`. `K` is the type (`float`) of the factor
`k = 1.0 / w`;
the loop `for ( ; pin<pend; ++pin,++pout )` runs `count` times with
`pin = in.rd() + j` and `pout = out.wr() + j` in iteration `j`. -/
def naive_lowpass.run {T : Type} (K : Type) [Zero T] [Add T] [HMul T K T] [One K] [Div K] [NatCast K]
    (f : naive_lowpass T) : naive_lowpass T :=
  if f.inp.readable < f.w then f
  else
    let count := min (f.inp.readable - f.w) f.out.writable
    let pin := f.inp.rd
    let pout := f.out.wr
    let k : K := 1 / (f.w : K)
    let mem := forLoop count (fun j m =>
      let x : T := forLoop f.w (fun i x => x + f.inp.mem (pin + j + i)) 0
      Function.update m (pout + j) (x * k)) f.out.mem
    ⟨f.w, f.inp.read count, (f.out.withMem mem).written count⟩

/-- Source: the unsigned subtractions `in.readable()-w` that
`naive_lowpass::run` evaluates, as pairs `(readable, w)`: none on the early
return, one otherwise. -/
def naive_lowpass.subtractions {T : Type} (f : naive_lowpass T) : List (Nat × Nat) :=
  if f.inp.readable < f.w then [] else [(f.inp.readable, f.w)]

/-- Source: the offsets from `in.rd()` of the input cells `pin[i]` that
`naive_lowpass::run` reads, in order (`pin = in.rd() + j`, so the offset is
`j + i`). -/
def naive_lowpass.read_offsets {T : Type} (f : naive_lowpass T) : List Nat :=
  if f.inp.readable < f.w then []
  else
    let count := min (f.inp.readable - f.w) f.out.writable
    forLoop count (fun j acc => forLoop f.w (fun i acc => acc ++ [j + i]) acc) []

/-- Source: the offsets from `out.wr()` of the output cells `*pout` that
`naive_lowpass::run` writes, in order. -/
def naive_lowpass.write_offsets {T : Type} (f : naive_lowpass T) : List Nat :=
  if f.inp.readable < f.w then []
  else
    let count := min (f.inp.readable - f.w) f.out.writable
    forLoop count (fun j acc => acc ++ [j]) []

/-- The elements one `naive_lowpass::run` step emits, read off its effect: the
cells between the old and the new write cursor of the output, in order. -/
def naive_lowpass.emitted {T : Type} (K : Type) [Zero T] [Add T] [HMul T K T] [One K] [Div K]
    [NatCast K] (f : naive_lowpass T) : List T :=
  (List.range ((naive_lowpass.run K f).out.wpos - f.out.wpos)).map
    (fun i => (naive_lowpass.run K f).out.mem (f.out.wr + i))

/-- A boxcar filter in its pipeline, with two history counters: the number of
input samples consumed so far and the list of all elements emitted so far. -/
structure lowpass_sys (T : Type) where
  f : naive_lowpass T
  consumed : Nat
  emitted : List T

/-- Modelled from the spec: the steps of a pipeline around the filter fed with
the stream `s` (spec sections 3, 5 and 6; the scheduler, the producer and the
consumer are outside `dsp.h`). `run` is one invocation of `naive_lowpass::run`,
recording what it consumed and emitted. `env` is any activity of the
surroundings (appends to the input, drains of the output, in any amount): it
keeps the window width, leaves the history alone, and presents as readable
input the stream from the first sample not yet consumed (FIFO order); the
output buffer may change freely. -/
inductive lowpass_step {T : Type} (K : Type) [Zero T] [Add T] [HMul T K T] [One K] [Div K]
    [NatCast K] (s : Nat → T) : lowpass_sys T → lowpass_sys T → Prop
  | run (st : lowpass_sys T) :
      lowpass_step K s st
        ⟨naive_lowpass.run K st.f,
         st.consumed + ((naive_lowpass.run K st.f).inp.rpos - st.f.inp.rpos),
         st.emitted ++ naive_lowpass.emitted K st.f⟩
  | env (st : lowpass_sys T) (f2 : naive_lowpass T) (hw : f2.w = st.f.w)
      (hin : ∀ t, t < f2.inp.readable → f2.inp.mem (f2.inp.rd + t) = s (st.consumed + t)) :
      lowpass_step K s st ⟨f2, st.consumed, st.emitted⟩

/-! ## `wgn_c` -/

/-- Source: `struct wgn_c`, the public field `stddev` and the writer. -/
structure wgn_c (T : Type) where
  stddev : T
  out : pipebuf (complex T)

/-- Source: the rejection loop `do { x = 2*drand48() - 1; y = 2*drand48() - 1;
r2 = x*x + y*y; } while ( r2==0 || r2>=1 )` of `wgn_c::run`. The random source
`drand48` is the sequence `rng` of the values its successive calls return and
`pos` counts the calls made so far. The loop has no bound in the source; `fuel`
bounds the number of iterations here and the result is `none` when it is
exceeded. On exit the result is `(x, y, r2, pos)`. -/
def wgn_c.draw {T : Type} [LinearOrderedField T] (rng : Nat → T) : Nat → Nat → Option (T × T × T × Nat)
  | 0, _ => none
  | fuel + 1, pos =>
    let x := 2 * rng pos - 1
    let y := 2 * rng (pos + 1) - 1
    let r2 := x * x + y * y
    if r2 = 0 ∨ r2 ≥ 1 then wgn_c.draw rng fuel (pos + 2) else some (x, y, r2, pos + 2)

/-- Source: the body of the loop `while ( pout < pend )` of `wgn_c::run`, for
the sample stored at `pout`: the rejection loop, then `k`, then the two stores.
The state is the output storage and the number of draws made, or `none` once a
rejection loop has exceeded `fuel`. -/
def wgn_c.emit {T : Type} [LinearOrderedField T] (sqrtf log : T → T) (rng : Nat → T) (fuel : Nat)
    (stddev : T) (pout : Nat) (st : Option ((Nat → complex T) × Nat)) :
    Option ((Nat → complex T) × Nat) :=
  match st with
  | none => none
  | some (mem, pos) =>
    match wgn_c.draw rng fuel pos with
    | none => none
    | some (x, y, r2, pos1) =>
      let k := sqrtf (-2 * log r2 / r2) * stddev
      let mem1 := Function.update mem pout ⟨k * x, (mem pout).im⟩
      let mem2 := Function.update mem1 pout ⟨(mem1 pout).re, k * y⟩
      some (mem2, pos1)

/-- Source: `wgn_c::run`. `sqrtf` and `log` are the `<math.h>` functions; the
loop `while ( pout < pend )` runs `n` times with `pout = out.wr() + i`; each
inner rejection loop gets `fuel` iterations, and the step is `none` when one of
them exceeds it. The result is the block and the number of draws made. -/
def wgn_c.run {T : Type} [LinearOrderedField T] (sqrtf log : T → T) (rng : Nat → T) (fuel : Nat)
    (g : wgn_c T) (pos : Nat) : Option (wgn_c T × Nat) :=
  let n := g.out.writable
  let pout := g.out.wr
  let r := forLoop n (fun i st => wgn_c.emit sqrtf log rng fuel g.stddev (pout + i) st)
    (some (g.out.mem, pos))
  match r with
  | none => none
  | some (mem, pos1) => some (⟨g.stddev, (g.out.withMem mem).written n⟩, pos1)

/-! ## Proof-level definitions -/

/-- The pair of draws starting at call `q` is accepted by the rejection loop. -/
def wgn_c.accepted {T : Type} [LinearOrderedField T] (rng : Nat → T) (q : Nat) : Prop :=
  ¬ ((2 * rng q - 1) * (2 * rng q - 1) + (2 * rng (q + 1) - 1) * (2 * rng (q + 1) - 1) = 0 ∨
     (2 * rng q - 1) * (2 * rng q - 1) + (2 * rng (q + 1) - 1) * (2 * rng (q + 1) - 1) ≥ 1)

/-- The value obtained by reversing the low `b` bits of `i`. -/
def rev : Nat → Nat → Nat
  | 0, _ => 0
  | b + 1, i => rev b (i / 2) + 2 ^ b * (i % 2)

/-- The value the constructor leaves in `bitrev[i]`: the inner loop
`for b < logn: r = (r << 1) | ((i >> b) & 1)` started from `0`. -/
def bitrevVal (logn i : Nat) : Nat :=
  forLoop logn (fun b r => (r <<< 1) ||| ((i >>> b) &&& 1)) 0

/-- The transform of size `2^s` held by block `j` after `s` butterfly stages,
when `b` stages remain: the input subsequence `X (rev b j + 2^b t)`, `t < 2^s`,
transformed with the root `W ^ 2^b`. -/
def Sjk {R : Type} [CommRing R] (X : Nat → R) (W : R) (b s j k : Nat) : R :=
  ∑ t in Finset.range (2 ^ s), X (rev b j + 2 ^ b * t) * W ^ (2 ^ b * t * k)

/-- A sample read as a complex number. -/
def toC (z : complex ℝ) : ℂ := ⟨z.re, z.im⟩

/-! ## Concrete inputs used to instantiate the theorems -/

/-- A buffer of rationals whose cell `j` holds `j + 1`, with `rpos`, `wpos`, `cap`
as given. -/
def rampBuf (rpos wpos cap : Nat) : pipebuf ℚ := ⟨fun j => (j : ℚ) + 1, rpos, wpos, cap⟩

/-- A complex buffer whose cell `j` holds `(j + 1, 2 j)`. -/
def crampBuf (rpos wpos cap : Nat) : pipebuf (complex ℚ) :=
  ⟨fun j => ⟨(j : ℚ) + 1, 2 * (j : ℚ)⟩, rpos, wpos, cap⟩

/-- The impulse array: `1` at index `0`, `0` elsewhere. -/
def impulse (T : Type) [Zero T] [One T] : Nat → complex T :=
  fun i => if i = 0 then ⟨1, 0⟩ else ⟨0, 0⟩

/-- An integer converter input: cell `j` holds `(j + 3, 7 - j)`. -/
def exIntConverter : cconverter Int cint :=
  ⟨⟨fun j => ⟨(j : Int) + 3, 7 - (j : Int)⟩, 0, 4, 8⟩, ⟨fun _ => ⟨⟨0⟩, ⟨0⟩⟩, 0, 0, 4⟩⟩

/-- A converter with four readable samples and room for three. -/
def exConverter : cconverter ℚ ℚ := ⟨crampBuf 1 5 8, crampBuf 2 2 5⟩

/-- An adder with readable counts 4 and 3 and room for 5. -/
def exAdder : adder ℚ := ⟨rampBuf 0 4 8, rampBuf 2 5 8, rampBuf 1 1 6⟩

/-- A boxcar filter of width 3 reading `[1,2,3,4,5,6]` with room for 4. -/
def exLowpass : naive_lowpass ℚ := ⟨3, rampBuf 0 6 8, rampBuf 0 0 4⟩

/-- The filter `exLowpass` at the start of the stream `1, 2, 3, ...`. -/
def exLowpassSys : lowpass_sys ℚ := ⟨exLowpass, 0, []⟩

/-! ## Loop lemmas -/

theorem forLoop_zero {σ : Type} (body : Nat → σ → σ) (s : σ) : forLoop 0 body s = s := rfl

theorem forLoop_succ {σ : Type} (n : Nat) (body : Nat → σ → σ) (s : σ) :
    forLoop (n + 1) body s = body n (forLoop n body s) := rfl

/-- Invariant rule for a counted loop. -/
theorem forLoop_induct {σ : Type} (P : Nat → σ → Prop) (n : Nat) (body : Nat → σ → σ) (s : σ)
    (h0 : P 0 s) (hstep : ∀ i t, i < n → P i t → P (i + 1) (body i t)) :
    P n (forLoop n body s) := by
  induction n with
  | zero => exact h0
  | succ k ih =>
    rw [forLoop_succ]
    exact hstep k _ (Nat.lt_succ_self k)
      (ih (fun i t hi hP => hstep i t (Nat.lt_succ_of_lt hi) hP))

/-- Two loops whose bodies agree on the indices run compute the same state. -/
theorem forLoop_congr {σ : Type} (n : Nat) (body body2 : Nat → σ → σ) (s : σ)
    (h : ∀ i t, i < n → body i t = body2 i t) : forLoop n body s = forLoop n body2 s := by
  induction n with
  | zero => rfl
  | succ k ih =>
    rw [forLoop_succ, forLoop_succ, h k _ (Nat.lt_succ_self k),
      ih (fun i t hi => h i t (Nat.lt_succ_of_lt hi))]

/-- A loop that stores `g i` at `base + i` fills `[base, base + n)` with `g` and
leaves every other cell alone. -/
theorem forLoop_store {T : Type} (n base : Nat) (g : Nat → T) (m0 : Nat → T) (j : Nat) :
    forLoop n (fun i m => Function.update m (base + i) (g i)) m0 j =
      if base ≤ j ∧ j < base + n then g (j - base) else m0 j := by
  induction n with
  | zero =>
    have h1 : ¬ (base ≤ j ∧ j < base + 0) := by omega
    rw [forLoop_zero, if_neg h1]
  | succ k ih =>
    rw [forLoop_succ, Function.update_apply]
    by_cases hj : j = base + k
    · subst hj
      have h1 : base ≤ base + k ∧ base + k < base + (k + 1) := by omega
      simp [h1]
    · rw [if_neg hj, ih]
      by_cases h2 : base ≤ j ∧ j < base + k
      · have h3 : base ≤ j ∧ j < base + (k + 1) := by omega
        rw [if_pos h2, if_pos h3]
      · have h3 : ¬ (base ≤ j ∧ j < base + (k + 1)) := by omega
        rw [if_neg h2, if_neg h3]

/-- The accumulation loop `x = x + g i` computes the sum of `g` over `[0, w)`. -/
theorem forLoop_sum {T : Type} [AddCommMonoid T] (w : Nat) (g : Nat → T) :
    forLoop w (fun i x => x + g i) 0 = ∑ i in Finset.range w, g i := by
  induction w with
  | zero => simp [forLoop_zero]
  | succ k ih => rw [forLoop_succ, Finset.sum_range_succ, ih]

theorem min_eq_nat_min (x y : Nat) : min x y = Min.min x y := by
  unfold min
  rw [Nat.min_def]
  split_ifs <;> omega

/-! ## `cconverter::run` -/

theorem cconverter_run_eq {Tin Tout : Type} [Add Tout] [Sub Tout] [Mul Tout] [Div Tout]
    [IntCast Tout] (cast : Tin → Tout) (Zin Zout Gn Gd : Int) (c : cconverter Tin Tout) :
    cconverter.run cast Zin Zout Gn Gd c =
      ⟨⟨c.inp.mem, c.inp.rpos + Min.min c.inp.readable c.out.writable, c.inp.wpos, c.inp.cap⟩,
       ⟨fun j => if c.out.wpos ≤ j ∧ j < c.out.wpos + Min.min c.inp.readable c.out.writable then
            ⟨(Zout : Tout) + (cast (c.inp.mem (c.inp.rpos + (j - c.out.wpos))).re - (Zin : Tout))
                * (Gn : Tout) / (Gd : Tout),
             (Zout : Tout) + (cast (c.inp.mem (c.inp.rpos + (j - c.out.wpos))).im - (Zin : Tout))
                * (Gn : Tout) / (Gd : Tout)⟩
          else c.out.mem j,
        c.out.rpos, c.out.wpos + Min.min c.inp.readable c.out.writable, c.out.cap⟩⟩ := by
  unfold cconverter.run
  simp only [min_eq_nat_min, pipebuf.read, pipebuf.written, pipebuf.withMem, pipebuf.rd,
    pipebuf.wr, Function.update_idem, Function.update_same]
  congr 2
  funext j
  exact forLoop_store _ _ _ _ j

/-- The sample stored at output position `i < count` by `cconverter::run`. -/
theorem cconverter_run_mem {Tin Tout : Type} [Add Tout] [Sub Tout] [Mul Tout] [Div Tout]
    [IntCast Tout] (cast : Tin → Tout) (Zin Zout Gn Gd : Int) (c : cconverter Tin Tout) (i : Nat)
    (hi : i < Min.min c.inp.readable c.out.writable) :
    (cconverter.run cast Zin Zout Gn Gd c).out.mem (c.out.wpos + i) =
      ⟨(Zout : Tout) + (cast (c.inp.mem (c.inp.rpos + i)).re - (Zin : Tout)) * (Gn : Tout) / (Gd : Tout),
       (Zout : Tout) + (cast (c.inp.mem (c.inp.rpos + i)).im - (Zin : Tout)) * (Gn : Tout) / (Gd : Tout)⟩ := by
  rw [cconverter_run_eq]
  have h1 : c.out.wpos ≤ c.out.wpos + i ∧
      c.out.wpos + i < c.out.wpos + Min.min c.inp.readable c.out.writable := by omega
  have h2 : c.out.wpos + i - c.out.wpos = i := by omega
  simp only [if_pos h1, h2]

/-- C5: every one of the first `count = min(readable, writable)` samples is
converted component-wise by `Zout + (x - Zin) * Gn / Gd` (exact arithmetic in a
field, `Gd ≠ 0`), output position `i` holding the image of input position `i`. -/
theorem cconverter_run_sample {Tin Tout : Type} [Field Tout] (cast : Tin → Tout)
    (Zin Zout Gn Gd : Int) (c : cconverter Tin Tout) (_hGd : (Gd : Tout) ≠ 0) (i : Nat)
    (hi : i < Min.min c.inp.readable c.out.writable) :
    ((cconverter.run cast Zin Zout Gn Gd c).out.mem (c.out.wr + i)).re =
        (Zout : Tout) + (cast (c.inp.mem (c.inp.rd + i)).re - (Zin : Tout)) * (Gn : Tout) / (Gd : Tout) ∧
    ((cconverter.run cast Zin Zout Gn Gd c).out.mem (c.out.wr + i)).im =
        (Zout : Tout) + (cast (c.inp.mem (c.inp.rd + i)).im - (Zin : Tout)) * (Gn : Tout) / (Gd : Tout) := by
  rw [cconverter_run_eq]
  have h1 : c.out.wpos ≤ c.out.wr + i ∧
      c.out.wr + i < c.out.wpos + Min.min c.inp.readable c.out.writable := by
    unfold pipebuf.wr
    omega
  have h2 : c.out.wr + i - c.out.wpos = i := by
    unfold pipebuf.wr
    omega
  simp only [if_pos h1, h2, pipebuf.rd, and_self]

theorem cconverter_run_sample_witness :
    ((2 : Int) : ℚ) ≠ 0 ∧ 1 < Min.min exConverter.inp.readable exConverter.out.writable ∧
    ((cconverter.run id 128 0 1 2 exConverter).out.mem (exConverter.out.wr + 1)).re =
        ((0 : Int) : ℚ) + (id (exConverter.inp.mem (exConverter.inp.rd + 1)).re - ((128 : Int) : ℚ))
          * ((1 : Int) : ℚ) / ((2 : Int) : ℚ) ∧
    ((cconverter.run id 128 0 1 2 exConverter).out.mem (exConverter.out.wr + 1)).im =
        ((0 : Int) : ℚ) + (id (exConverter.inp.mem (exConverter.inp.rd + 1)).im - ((128 : Int) : ℚ))
          * ((1 : Int) : ℚ) / ((2 : Int) : ℚ) :=
  ⟨by norm_num, by decide,
    cconverter_run_sample id 128 0 1 2 exConverter (by norm_num) 1 (by decide)⟩

/-- C6: `cconverter::run` advances the read cursor of the input and the write
cursor of the output by exactly `count = min(readable, writable)`, changes no
other cursor, leaves the input storage and every output cell outside
`[wpos, wpos + count)` unchanged, and is the identity when the input is empty
or the output is full. -/
theorem cconverter_run_frame {Tin Tout : Type} [Add Tout] [Sub Tout] [Mul Tout] [Div Tout]
    [IntCast Tout] (cast : Tin → Tout) (Zin Zout Gn Gd : Int) (c : cconverter Tin Tout) :
    (cconverter.run cast Zin Zout Gn Gd c).inp.rpos
        = c.inp.rpos + Min.min c.inp.readable c.out.writable ∧
    (cconverter.run cast Zin Zout Gn Gd c).out.wpos
        = c.out.wpos + Min.min c.inp.readable c.out.writable ∧
    (cconverter.run cast Zin Zout Gn Gd c).inp.mem = c.inp.mem ∧
    (cconverter.run cast Zin Zout Gn Gd c).inp.wpos = c.inp.wpos ∧
    (cconverter.run cast Zin Zout Gn Gd c).inp.cap = c.inp.cap ∧
    (cconverter.run cast Zin Zout Gn Gd c).out.rpos = c.out.rpos ∧
    (cconverter.run cast Zin Zout Gn Gd c).out.cap = c.out.cap ∧
    (∀ j, ¬ (c.out.wpos ≤ j ∧ j < c.out.wpos + Min.min c.inp.readable c.out.writable) →
      (cconverter.run cast Zin Zout Gn Gd c).out.mem j = c.out.mem j) ∧
    (c.inp.readable = 0 ∨ c.out.writable = 0 → cconverter.run cast Zin Zout Gn Gd c = c) := by
  rw [cconverter_run_eq]
  refine ⟨rfl, rfl, rfl, rfl, rfl, rfl, rfl, ?_, ?_⟩
  · intro j hj
    simp only [if_neg hj]
  · intro h0
    have h1 : Min.min c.inp.readable c.out.writable = 0 := by
      rcases h0 with h0 | h0 <;> simp [h0]
    have h2 : ∀ j, ¬ (c.out.wpos ≤ j ∧ j < c.out.wpos) := by
      intro j
      omega
    simp only [h1, Nat.add_zero, h2, if_false]

/-- C7: converter round trip. A converter with parameters `(Zin, Zout, Gn, Gd)`
feeding an initially empty buffer `B`, followed by a converter with the inverse
parameters `(Zout, Zin, Gd, Gn)` reading `B`, reproduces every sample it
processes exactly (both components), for non-zero `Gn`, `Gd` in exact
arithmetic. -/
theorem cconverter_roundtrip {T : Type} [Field T] (Zin Zout Gn Gd : Int)
    (A B C : pipebuf (complex T)) (hGn : (Gn : T) ≠ 0) (hGd : (Gd : T) ≠ 0)
    (hB : B.rpos = B.wpos) (i : Nat)
    (hi : i < Min.min (Min.min A.readable B.writable) C.writable) :
    (cconverter.run id Zout Zin Gd Gn
        ⟨(cconverter.run id Zin Zout Gn Gd ⟨A, B⟩).out, C⟩).out.mem (C.wr + i)
      = A.mem (A.rd + i) := by
  have hread : (cconverter.run id Zin Zout Gn Gd ⟨A, B⟩).out.readable
      = Min.min A.readable B.writable := by
    rw [cconverter_run_eq]
    simp only [pipebuf.readable, hB]
    omega
  have hrpos : (cconverter.run id Zin Zout Gn Gd ⟨A, B⟩).out.rpos = B.wpos := by
    rw [cconverter_run_eq]
    exact hB
  have h1 : i < Min.min A.readable B.writable := lt_of_lt_of_le hi (Nat.min_le_left _ _)
  have h2 := cconverter_run_mem id Zout Zin Gd Gn
    ⟨(cconverter.run id Zin Zout Gn Gd ⟨A, B⟩).out, C⟩ i (by
      show i < Min.min (cconverter.run id Zin Zout Gn Gd ⟨A, B⟩).out.readable C.writable
      rw [hread]
      exact hi)
  have h3 := cconverter_run_mem id Zin Zout Gn Gd ⟨A, B⟩ i h1
  simp only [] at h2 h3
  unfold pipebuf.wr pipebuf.rd
  rw [h2, hrpos, h3]
  simp only [id]
  rcases hA : A.mem (A.rpos + i) with ⟨xr, xi⟩
  congr 1
  · field_simp
    ring
  · field_simp
    ring

theorem cconverter_roundtrip_witness :
    ((3 : Int) : ℚ) ≠ 0 ∧ ((2 : Int) : ℚ) ≠ 0 ∧ (crampBuf 2 2 5).rpos = (crampBuf 2 2 5).wpos ∧
    2 < Min.min (Min.min (crampBuf 1 5 8).readable (crampBuf 2 2 5).writable)
      (crampBuf 0 0 4).writable ∧
    (cconverter.run id 0 128 2 3
        ⟨(cconverter.run id 128 0 3 2 ⟨crampBuf 1 5 8, crampBuf 2 2 5⟩).out,
          crampBuf 0 0 4⟩).out.mem ((crampBuf 0 0 4).wr + 2)
      = (crampBuf 1 5 8).mem ((crampBuf 1 5 8).rd + 2) :=
  ⟨by norm_num, by norm_num, rfl, by decide,
    cconverter_roundtrip 128 0 3 2 (crampBuf 1 5 8) (crampBuf 2 2 5) (crampBuf 0 0 4)
      (by norm_num) (by norm_num) rfl 2 (by decide)⟩

/-! ## `adder::run` -/

theorem adder_count (w r1 r2 : Nat) :
    (if r2 < (if r1 < w then r1 else w) then r2 else (if r1 < w then r1 else w))
      = Min.min w (Min.min r1 r2) := by
  simp only [Nat.min_def]
  split_ifs <;> omega

theorem adder_run_eq {T : Type} [Add T] (a : adder T) :
    adder.run a =
      ⟨⟨a.in1.mem, a.in1.rpos + Min.min a.out.writable (Min.min a.in1.readable a.in2.readable),
          a.in1.wpos, a.in1.cap⟩,
       ⟨a.in2.mem, a.in2.rpos + Min.min a.out.writable (Min.min a.in1.readable a.in2.readable),
          a.in2.wpos, a.in2.cap⟩,
       ⟨fun j => if a.out.wpos ≤ j ∧
              j < a.out.wpos + Min.min a.out.writable (Min.min a.in1.readable a.in2.readable) then
            a.in1.mem (a.in1.rpos + (j - a.out.wpos)) + a.in2.mem (a.in2.rpos + (j - a.out.wpos))
          else a.out.mem j,
        a.out.rpos,
        a.out.wpos + Min.min a.out.writable (Min.min a.in1.readable a.in2.readable),
        a.out.cap⟩⟩ := by
  unfold adder.run
  simp only [adder_count, pipebuf.read, pipebuf.written, pipebuf.withMem, pipebuf.rd,
    pipebuf.wr]
  congr 2
  funext j
  exact forLoop_store _ _ _ _ j

/-- C8: with `k = min(writable(out), readable(in1), readable(in2))`, `adder::run`
stores `in1[i] + in2[i]` at output position `i` for every `i < k`, touches no
other output cell, advances the two read cursors and the write cursor by `k`,
and is the identity when an input is empty or the output is full. -/
theorem adder_run_spec {T : Type} [Add T] (a : adder T) :
    (∀ i, i < Min.min a.out.writable (Min.min a.in1.readable a.in2.readable) →
      (adder.run a).out.mem (a.out.wr + i)
        = a.in1.mem (a.in1.rd + i) + a.in2.mem (a.in2.rd + i)) ∧
    (∀ j, ¬ (a.out.wr ≤ j ∧
        j < a.out.wr + Min.min a.out.writable (Min.min a.in1.readable a.in2.readable)) →
      (adder.run a).out.mem j = a.out.mem j) ∧
    (adder.run a).in1.rpos
      = a.in1.rpos + Min.min a.out.writable (Min.min a.in1.readable a.in2.readable) ∧
    (adder.run a).in2.rpos
      = a.in2.rpos + Min.min a.out.writable (Min.min a.in1.readable a.in2.readable) ∧
    (adder.run a).out.wpos
      = a.out.wpos + Min.min a.out.writable (Min.min a.in1.readable a.in2.readable) ∧
    (a.in1.readable = 0 ∨ a.in2.readable = 0 ∨ a.out.writable = 0 → adder.run a = a) := by
  rw [adder_run_eq]
  unfold pipebuf.wr pipebuf.rd
  refine ⟨?_, ?_, rfl, rfl, rfl, ?_⟩
  · intro i hi
    have h1 : a.out.wpos ≤ a.out.wpos + i ∧ a.out.wpos + i
        < a.out.wpos + Min.min a.out.writable (Min.min a.in1.readable a.in2.readable) := by
      omega
    have h2 : a.out.wpos + i - a.out.wpos = i := by omega
    simp only [if_pos h1, h2]
  · intro j hj
    simp only [if_neg hj]
  · intro h0
    have h1 : Min.min a.out.writable (Min.min a.in1.readable a.in2.readable) = 0 := by
      rcases h0 with h0 | h0 | h0 <;> simp [h0]
    have h2 : ∀ j, ¬ (a.out.wpos ≤ j ∧ j < a.out.wpos) := by
      intro j
      omega
    simp only [h1, Nat.add_zero, h2, if_false]

theorem adder_run_spec_witness :
    (adder.run exAdder).out.mem (exAdder.out.wr + 2) = 3 + 5 ∧
    (adder.run exAdder).out.wpos = 4 ∧ (adder.run exAdder).in1.rpos = 3 ∧
    (adder.run exAdder).in2.rpos = 5 := by
  have h := adder_run_spec exAdder
  have e : Min.min exAdder.out.writable (Min.min exAdder.in1.readable exAdder.in2.readable)
      = 3 := by decide
  rw [e] at h
  refine ⟨?_, h.2.2.2.2.1, h.2.2.1, h.2.2.2.1⟩
  rw [h.1 2 (by decide)]
  simp only [exAdder, rampBuf, pipebuf.rd]
  norm_num

/-! ## `naive_lowpass::run` -/

theorem naive_lowpass_run_short {T : Type} (K : Type) [Zero T] [Add T] [HMul T K T] [One K]
    [Div K] [NatCast K] (f : naive_lowpass T) (h : f.inp.readable < f.w) :
    naive_lowpass.run K f = f := by
  unfold naive_lowpass.run
  rw [if_pos h]

theorem naive_lowpass_run_eq {T : Type} (K : Type) [AddCommMonoid T] [HMul T K T] [One K]
    [Div K] [NatCast K] (f : naive_lowpass T) (h : f.w ≤ f.inp.readable) :
    naive_lowpass.run K f =
      ⟨f.w,
       ⟨f.inp.mem, f.inp.rpos + Min.min (f.inp.readable - f.w) f.out.writable, f.inp.wpos,
          f.inp.cap⟩,
       ⟨fun j => if f.out.wpos ≤ j ∧
              j < f.out.wpos + Min.min (f.inp.readable - f.w) f.out.writable then
            (∑ t in Finset.range f.w, f.inp.mem (f.inp.rpos + (j - f.out.wpos) + t))
              * ((1 : K) / (f.w : K))
          else f.out.mem j,
        f.out.rpos, f.out.wpos + Min.min (f.inp.readable - f.w) f.out.writable, f.out.cap⟩⟩ := by
  unfold naive_lowpass.run
  rw [if_neg (Nat.not_lt.mpr h)]
  simp only [min_eq_nat_min, pipebuf.read, pipebuf.written, pipebuf.withMem, pipebuf.rd,
    pipebuf.wr, forLoop_sum]
  congr 2
  funext j
  exact forLoop_store _ _ _ _ j

/-- The output cell `i < count` written by `naive_lowpass::run`. -/
theorem naive_lowpass_run_mem {T : Type} (K : Type) [AddCommMonoid T] [HMul T K T] [One K]
    [Div K] [NatCast K] (f : naive_lowpass T) (i : Nat)
    (hi : i < Min.min (f.inp.readable - f.w) f.out.writable) :
    (naive_lowpass.run K f).out.mem (f.out.wpos + i)
      = (∑ t in Finset.range f.w, f.inp.mem (f.inp.rpos + i + t)) * ((1 : K) / (f.w : K)) := by
  have h : f.w ≤ f.inp.readable := by
    by_contra hc
    have h0 : f.inp.readable - f.w = 0 := by omega
    rw [h0] at hi
    simp at hi
  rw [naive_lowpass_run_eq K f h]
  have h1 : f.out.wpos ≤ f.out.wpos + i ∧
      f.out.wpos + i < f.out.wpos + Min.min (f.inp.readable - f.w) f.out.writable := by omega
  have h2 : f.out.wpos + i - f.out.wpos = i := by omega
  simp only [if_pos h1, h2]

/-- C9: for window width `w ≥ 1`, output `i < count` of `naive_lowpass::run` is
`(in[i] + ... + in[i+w-1]) * (1/w)` with offsets from the read cursor (exact
arithmetic); and for `w = 3` on readable input `[1,2,3,4,5,6]` with room for
two outputs, the first two outputs are `2` and `3`. -/
theorem naive_lowpass_run_window :
    (∀ (T K : Type) [AddCommMonoid T] [Field K] [HMul T K T] (f : naive_lowpass T) (i : Nat),
      1 ≤ f.w → i < Min.min (f.inp.readable - f.w) f.out.writable →
      (naive_lowpass.run K f).out.mem (f.out.wr + i)
        = (∑ t in Finset.range f.w, f.inp.mem (f.inp.rd + i + t)) * ((1 : K) / (f.w : K))) ∧
    (∀ (f : naive_lowpass ℚ), f.w = 3 → f.inp.readable = 6 →
      (∀ t, t < 6 → f.inp.mem (f.inp.rd + t) = (t : ℚ) + 1) → 2 ≤ f.out.writable →
      (naive_lowpass.run ℚ f).out.mem f.out.wr = 2 ∧
      (naive_lowpass.run ℚ f).out.mem (f.out.wr + 1) = 3) := by
  constructor
  · intro T K _ _ _ f i _ hi
    exact naive_lowpass_run_mem K f i hi
  · intro f hw hr hmem hwr
    have h0 : 0 < Min.min (f.inp.readable - f.w) f.out.writable := by
      rw [hw, hr]
      exact lt_min (by norm_num) (by omega)
    have h1 : 1 < Min.min (f.inp.readable - f.w) f.out.writable := by
      rw [hw, hr]
      exact lt_min (by norm_num) (by omega)
    have e0 := naive_lowpass_run_mem ℚ f 0 h0
    have e1 := naive_lowpass_run_mem ℚ f 1 h1
    unfold pipebuf.wr pipebuf.rd at *
    rw [Nat.add_zero] at e0
    rw [e0, e1, hw]
    simp only [Finset.sum_range_succ, Finset.sum_range_zero, Nat.add_zero]
    have a0 := hmem 0 (by norm_num)
    have a1 := hmem 1 (by norm_num)
    have a2 := hmem 2 (by norm_num)
    have a3 := hmem 3 (by norm_num)
    simp only [Nat.add_zero] at a0
    rw [Nat.add_assoc, Nat.add_assoc, a0, a1, a2, a3]
    norm_num

theorem naive_lowpass_run_window_witness :
    ((naive_lowpass.run ℚ exLowpass).out.mem (exLowpass.out.wr + 2)
        = (∑ t in Finset.range exLowpass.w, exLowpass.inp.mem (exLowpass.inp.rd + 2 + t))
            * ((1 : ℚ) / (exLowpass.w : ℚ))) ∧
    ((naive_lowpass.run ℚ exLowpass).out.mem exLowpass.out.wr = 2 ∧
      (naive_lowpass.run ℚ exLowpass).out.mem (exLowpass.out.wr + 1) = 3) :=
  ⟨naive_lowpass_run_window.1 ℚ ℚ exLowpass 2 (by decide) (by decide),
   naive_lowpass_run_window.2 exLowpass rfl (by decide)
    (by intro t _; simp [exLowpass, rampBuf, pipebuf.rd]) (by decide)⟩

/-- C10: `naive_lowpass::run` is the identity (no output, no cursor moved) when
`readable < w`; otherwise, with `count = min(readable - w, writable)`, it
stores into exactly the `count` output cells from the write cursor and advances
the read cursor and the write cursor by `count` each, leaving the rest. -/
theorem naive_lowpass_run_cursors {T : Type} (K : Type) [AddCommMonoid T] [HMul T K T] [One K]
    [Div K] [NatCast K] (f : naive_lowpass T) :
    (f.inp.readable < f.w → naive_lowpass.run K f = f) ∧
    (f.w ≤ f.inp.readable →
      (naive_lowpass.run K f).inp.rpos
        = f.inp.rpos + Min.min (f.inp.readable - f.w) f.out.writable ∧
      (naive_lowpass.run K f).out.wpos
        = f.out.wpos + Min.min (f.inp.readable - f.w) f.out.writable ∧
      (naive_lowpass.run K f).inp.readable
        = f.inp.readable - Min.min (f.inp.readable - f.w) f.out.writable ∧
      (naive_lowpass.run K f).out.writable
        = f.out.writable - Min.min (f.inp.readable - f.w) f.out.writable ∧
      (naive_lowpass.run K f).inp.mem = f.inp.mem ∧
      (naive_lowpass.run K f).inp.wpos = f.inp.wpos ∧
      (naive_lowpass.run K f).out.rpos = f.out.rpos ∧
      (naive_lowpass.run K f).w = f.w ∧
      (∀ j, ¬ (f.out.wr ≤ j ∧
          j < f.out.wr + Min.min (f.inp.readable - f.w) f.out.writable) →
        (naive_lowpass.run K f).out.mem j = f.out.mem j)) := by
  constructor
  · exact naive_lowpass_run_short K f
  · intro h
    rw [naive_lowpass_run_eq K f h]
    unfold pipebuf.wr
    refine ⟨rfl, rfl, ?_, ?_, rfl, rfl, rfl, rfl, ?_⟩
    · simp only [pipebuf.readable]
      omega
    · simp only [pipebuf.writable]
      omega
    · intro j hj
      simp only [if_neg hj]

theorem naive_lowpass_run_cursors_witness :
    (naive_lowpass.run ℚ exLowpass).inp.rpos = 3 ∧
    (naive_lowpass.run ℚ exLowpass).out.wpos = 3 ∧
    (naive_lowpass.run ℚ exLowpass).inp.readable = 3 := by
  have h := (naive_lowpass_run_cursors ℚ exLowpass).2 (by decide)
  have e : Min.min (exLowpass.inp.readable - exLowpass.w) exLowpass.out.writable = 3 := by
    decide
  rw [e] at h
  exact ⟨h.1, h.2.1, h.2.2.1⟩

/-! ## The constructor: `logn` and the bit-reversal table -/

theorem log2_loop_two_pow (m l : Nat) : log2_loop (2 ^ m) l = l + m := by
  induction m generalizing l with
  | zero =>
    rw [log2_loop]
    simp
  | succ k ih =>
    rw [log2_loop]
    have h1 : 1 < 2 ^ (k + 1) := Nat.one_lt_two_pow (Nat.succ_ne_zero k)
    rw [if_pos h1, Nat.shiftRight_eq_div_pow, pow_one, pow_succ, Nat.mul_div_cancel _ (by norm_num),
      ih]
    omega

theorem shift_or_bit (r i b : Nat) :
    (r <<< 1) ||| ((i >>> b) &&& 1) = 2 * r + (i / 2 ^ b) % 2 := by
  rw [Nat.shiftLeft_eq, Nat.shiftRight_eq_div_pow, Nat.and_one_is_mod, pow_one, Nat.mul_comm r 2]
  have h := Nat.mul_add_lt_is_or (i := 1) (b := (i / 2 ^ b) % 2)
    (by rw [pow_one]; exact Nat.mod_lt _ (by norm_num)) r
  rw [pow_one] at h
  exact h.symm

theorem bitrevVal_zero (i : Nat) : bitrevVal 0 i = 0 := rfl

/-- Peeling the last iteration of the table loop: the new low bit is bit `k`. -/
theorem bitrevVal_succ (k i : Nat) :
    bitrevVal (k + 1) i = 2 * bitrevVal k i + (i / 2 ^ k) % 2 := by
  unfold bitrevVal
  rw [forLoop_succ, shift_or_bit]

/-- Peeling the first iteration of the table loop: bit `0` becomes the top bit. -/
theorem bitrevVal_succ_low (k i : Nat) :
    bitrevVal (k + 1) i = bitrevVal k (i / 2) + 2 ^ k * (i % 2) := by
  induction k with
  | zero =>
    rw [bitrevVal_succ, bitrevVal_zero, bitrevVal_zero]
    simp
  | succ k ih =>
    rw [bitrevVal_succ, ih, bitrevVal_succ k (i / 2), Nat.div_div_eq_div_mul, pow_succ,
      Nat.mul_comm 2 (2 ^ k)]
    ring

theorem bitrevVal_eq_rev (k i : Nat) : bitrevVal k i = rev k i := by
  induction k generalizing i with
  | zero => rfl
  | succ k ih => rw [bitrevVal_succ_low, ih, rev]

theorem rev_succ_high (k i : Nat) : rev (k + 1) i = 2 * rev k i + (i / 2 ^ k) % 2 := by
  rw [← bitrevVal_eq_rev, ← bitrevVal_eq_rev, bitrevVal_succ]

theorem rev_lt (k i : Nat) : rev k i < 2 ^ k := by
  induction k generalizing i with
  | zero => simp [rev]
  | succ k ih =>
    rw [rev, pow_succ]
    have h1 := ih (i / 2)
    have h2 : i % 2 < 2 := Nat.mod_lt _ (by norm_num)
    have h3 : 2 ^ k * (i % 2) ≤ 2 ^ k * 1 := Nat.mul_le_mul_left _ (by omega)
    omega

/-- Only the low `k` bits of the index matter. -/
theorem rev_add_mul (k a c : Nat) : rev k (a + 2 ^ k * c) = rev k a := by
  induction k generalizing a c with
  | zero => rfl
  | succ k ih =>
    have h0 : 2 ^ (k + 1) * c = 2 * (2 ^ k * c) := by
      rw [pow_succ]
      ring
    have h1 : (a + 2 ^ (k + 1) * c) / 2 = a / 2 + 2 ^ k * c := by
      rw [h0]
      omega
    have h2 : (a + 2 ^ (k + 1) * c) % 2 = a % 2 := by
      rw [h0]
      omega
    rw [rev, rev, h1, h2, ih]

/-- Bit reversal on `k` bits is an involution on `[0, 2^k)`. -/
theorem rev_rev (k i : Nat) (hi : i < 2 ^ k) : rev k (rev k i) = i := by
  induction k generalizing i with
  | zero =>
    simp only [pow_zero, Nat.lt_one_iff] at hi
    rw [hi]
    rfl
  | succ k ih =>
    have hi2 : i / 2 < 2 ^ k := by
      rw [pow_succ] at hi
      omega
    have ha := rev_lt k (i / 2)
    have hb : i % 2 < 2 := Nat.mod_lt _ (by norm_num)
    rw [rev_succ_high k (rev (k + 1) i)]
    rw [rev, rev_add_mul, ih _ hi2]
    have h3 : (rev k (i / 2) + 2 ^ k * (i % 2)) / 2 ^ k = i % 2 := by
      rw [Nat.add_mul_div_left _ _ (Nat.two_pow_pos k), Nat.div_eq_of_lt ha]
      omega
    rw [h3]
    omega

theorem rev_succ_even (b j : Nat) : rev (b + 1) (2 * j) = rev b j := by
  rw [rev]
  have h1 : 2 * j / 2 = j := by omega
  have h2 : 2 * j % 2 = 0 := by omega
  rw [h1, h2]
  simp

theorem rev_succ_odd (b j : Nat) : rev (b + 1) (2 * j + 1) = rev b j + 2 ^ b := by
  rw [rev]
  have h1 : (2 * j + 1) / 2 = j := by omega
  have h2 : (2 * j + 1) % 2 = 1 := by omega
  rw [h1, h2]
  simp

/-- The inner table loop only rewrites cell `i`, leaving `bitrevVal logn i`. -/
theorem bitrev_inner (logn i : Nat) (br : Nat → Nat) :
    forLoop logn (fun b br => Function.update br i (((br i) <<< 1) ||| ((i >>> b) &&& 1)))
        (Function.update br i 0)
      = Function.update br i (bitrevVal logn i) := by
  induction logn with
  | zero => rfl
  | succ k ih =>
    rw [forLoop_succ, ih, Function.update_same, Function.update_idem]
    rfl

theorem forLoop_store_zero {T : Type} (n : Nat) (g : Nat → T) (m0 : Nat → T) (j : Nat) :
    forLoop n (fun i m => Function.update m i (g i)) m0 j = if j < n then g j else m0 j := by
  have h := forLoop_store n 0 g m0 j
  simp only [Nat.zero_add, Nat.zero_le, true_and, Nat.sub_zero] at h
  exact h

theorem ctor_n {T : Type} [Field T] (sqrt cosf sinf : T → T) (M_PI : T) (n : Nat) :
    (cfft_engine.ctor sqrt cosf sinf M_PI n).n = n := rfl

theorem ctor_logn {T : Type} [Field T] (sqrt cosf sinf : T → T) (M_PI : T) (n : Nat) :
    (cfft_engine.ctor sqrt cosf sinf M_PI n).logn = log2_loop n 0 := rfl

theorem ctor_bitrev {T : Type} [Field T] (sqrt cosf sinf : T → T) (M_PI : T) (n j : Nat) :
    (cfft_engine.ctor sqrt cosf sinf M_PI n).bitrev j
      = if j < n then rev (log2_loop n 0) j else 0 := by
  unfold cfft_engine.ctor
  simp only [bitrev_inner, forLoop_store_zero, bitrevVal_eq_rev]

theorem ctor_tables {T : Type} [Field T] (sqrt cosf sinf : T → T) (M_PI : T) (n j : Nat) :
    (cfft_engine.ctor sqrt cosf sinf M_PI n).omega j
      = (if j < n then ⟨cosf (2 * M_PI * (j : T) / (n : T)), sinf (2 * M_PI * (j : T) / (n : T))⟩
          else ⟨0, 0⟩) ∧
    (cfft_engine.ctor sqrt cosf sinf M_PI n).omega_rev j
      = (if j < n then ⟨cosf (2 * M_PI * (j : T) / (n : T)), - sinf (2 * M_PI * (j : T) / (n : T))⟩
          else ⟨0, 0⟩) := by
  unfold cfft_engine.ctor
  simp only [Function.update_same, Function.update_idem]
  generalize hN : (n : T) = N
  clear hN
  induction n with
  | zero => simp [forLoop_zero]
  | succ k ih =>
    rw [forLoop_succ]
    simp only [Function.update_apply]
    by_cases hj : j = k
    · subst hj
      simp
    · have e : (j < k + 1) = (j < k) := by
        apply propext
        omega
      simp only [if_neg hj, e]
      exact ih

/-! ## The bit-reversal permutation loop -/

/-- The swap loop of `inplace`, for a table that is an involution of `[0, n)`:
afterwards cell `i` holds the original cell `bitrev[i]`. -/
theorem permute_spec {T : Type} (e : cfft_engine T) (x : Nat → complex T)
    (hinv : ∀ i, i < e.n → e.bitrev i < e.n ∧ e.bitrev (e.bitrev i) = i) (i : Nat)
    (hi : i < e.n) : e.permute x i = x (e.bitrev i) := by
  unfold cfft_engine.permute
  have key := forLoop_induct
    (fun i0 d => ∀ i, d i = if i < i0 ∧ e.bitrev i < i0 then x (e.bitrev i) else x i) e.n
    (fun i data =>
      let r := e.bitrev i
      if r < i then
        let tmp := data i
        let data1 := Function.update data i (data r)
        Function.update data1 r tmp
      else data) x
    (by
      intro i
      have h : ¬ (i < 0 ∧ e.bitrev i < 0) := by omega
      rw [if_neg h])
    (by
      intro i0 t hi0 hP i
      obtain ⟨hr, hrr⟩ := hinv i0 hi0
      simp only []
      by_cases hlt : e.bitrev i0 < i0
      · rw [if_pos hlt, Function.update_apply]
        by_cases h1 : i = e.bitrev i0
        · have c1 : ¬ (i0 < i0 ∧ e.bitrev i0 < i0) := by omega
          have c2 : e.bitrev i0 < i0 + 1 ∧ e.bitrev (e.bitrev i0) < i0 + 1 := by
            rw [hrr]
            omega
          rw [if_pos h1, hP i0, if_neg c1, h1, if_pos c2, hrr]
        · rw [if_neg h1, Function.update_apply]
          by_cases h2 : i = i0
          · have c1 : ¬ (e.bitrev i0 < i0 ∧ e.bitrev (e.bitrev i0) < i0) := by
              rw [hrr]
              omega
            have c2 : i0 < i0 + 1 ∧ e.bitrev i0 < i0 + 1 := by omega
            rw [if_pos h2, hP (e.bitrev i0), if_neg c1, h2, if_pos c2]
          · rw [if_neg h2, hP i]
            by_cases hc : i < i0 ∧ e.bitrev i < i0
            · have c2 : i < i0 + 1 ∧ e.bitrev i < i0 + 1 := by omega
              rw [if_pos hc, if_pos c2]
            · have c2 : ¬ (i < i0 + 1 ∧ e.bitrev i < i0 + 1) := by
                intro hcc
                have hin : i < e.n := by omega
                have hb : e.bitrev i = i0 := by omega
                have := (hinv i hin).2
                rw [hb] at this
                exact h1 this.symm
              rw [if_neg hc, if_neg c2]
      · rw [if_neg hlt, hP i]
        by_cases hc : i < i0 ∧ e.bitrev i < i0
        · have c2 : i < i0 + 1 ∧ e.bitrev i < i0 + 1 := by omega
          rw [if_pos hc, if_pos c2]
        · rw [if_neg hc]
          by_cases hcc : i < i0 + 1 ∧ e.bitrev i < i0 + 1
          · rw [if_pos hcc]
            by_cases h2 : i = i0
            · have hb : e.bitrev i0 = i0 := by
                rw [h2] at hcc
                omega
              rw [h2, hb]
            · exfalso
              have hin : i < e.n := by omega
              have hb : e.bitrev i = i0 := by omega
              have := (hinv i hin).2
              rw [hb] at this
              omega
          · rw [if_neg hcc])
  have hfin := key i
  have c : i < e.n ∧ e.bitrev i < e.n := ⟨hi, (hinv i hi).1⟩
  rw [if_pos c] at hfin
  exact hfin

/-! ## Algebra of the decimation-in-time recursion -/

theorem sum_range_even_odd {R : Type} [AddCommMonoid R] (f : Nat → R) (N : Nat) :
    ∑ t in Finset.range (2 * N), f t
      = ∑ u in Finset.range N, f (2 * u) + ∑ u in Finset.range N, f (2 * u + 1) := by
  induction N with
  | zero => simp
  | succ k ih =>
    have h : 2 * (k + 1) = 2 * k + 1 + 1 := by ring
    rw [h, Finset.sum_range_succ, Finset.sum_range_succ, ih, Finset.sum_range_succ,
      Finset.sum_range_succ]
    abel

/-- One butterfly stage joins the transforms of the even and odd halves. -/
theorem Sjk_step {R : Type} [CommRing R] (X : Nat → R) (W : R) (b s j k : Nat) :
    Sjk X W b (s + 1) j k
      = Sjk X W (b + 1) s (2 * j) k + W ^ (2 ^ b * k) * Sjk X W (b + 1) s (2 * j + 1) k := by
  unfold Sjk
  rw [pow_succ, Nat.mul_comm (2 ^ s) 2, sum_range_even_odd, Finset.mul_sum, rev_succ_even,
    rev_succ_odd]
  congr 1
  · apply Finset.sum_congr rfl
    intro u _
    have h1 : 2 ^ b * (2 * u) = 2 ^ (b + 1) * u := by
      rw [pow_succ]
      ring
    rw [h1]
  · apply Finset.sum_congr rfl
    intro u _
    have h1 : rev b j + 2 ^ b * (2 * u + 1) = rev b j + 2 ^ b + 2 ^ (b + 1) * u := by
      rw [pow_succ]
      ring
    have h2 : 2 ^ b * (2 * u + 1) * k = 2 ^ b * k + 2 ^ (b + 1) * u * k := by
      rw [pow_succ]
      ring
    rw [h1, h2, pow_add]
    ring

theorem Sjk_period {R : Type} [CommRing R] (X : Nat → R) (W : R) (b s j k : Nat)
    (hW : W ^ (2 ^ (b + s)) = 1) : Sjk X W b s j (k + 2 ^ s) = Sjk X W b s j k := by
  unfold Sjk
  apply Finset.sum_congr rfl
  intro t _
  have h1 : 2 ^ b * t * (k + 2 ^ s) = 2 ^ b * t * k + 2 ^ (b + s) * t := by
    rw [pow_add]
    ring
  rw [h1, pow_add, pow_mul W (2 ^ (b + s)) t, hW, one_pow, mul_one]

/-- The upper half of a block: the odd part enters with the opposite sign. -/
theorem Sjk_step_hi {R : Type} [CommRing R] (X : Nat → R) (W : R) (b s j k : Nat)
    (hW : W ^ (2 ^ (b + s)) = -1) :
    Sjk X W b (s + 1) j (k + 2 ^ s)
      = Sjk X W (b + 1) s (2 * j) k - W ^ (2 ^ b * k) * Sjk X W (b + 1) s (2 * j + 1) k := by
  have h1 : W ^ (2 ^ (b + 1 + s)) = 1 := by
    have e : 2 ^ (b + 1 + s) = 2 ^ (b + s) * 2 := by
      rw [← pow_succ]
      congr 1
      omega
    rw [e, pow_mul, hW]
    norm_num
  have h2 : W ^ (2 ^ b * (k + 2 ^ s)) = - W ^ (2 ^ b * k) := by
    have e : 2 ^ b * (k + 2 ^ s) = 2 ^ b * k + 2 ^ (b + s) := by
      rw [pow_add]
      ring
    rw [e, pow_add, hW]
    ring
  rw [Sjk_step, Sjk_period X W (b + 1) s _ k h1, Sjk_period X W (b + 1) s _ k h1, h2]
  ring

theorem Sjk_zero {R : Type} [CommRing R] (X : Nat → R) (W : R) (b j : Nat) :
    Sjk X W b 0 j 0 = X (rev b j) := by
  unfold Sjk
  simp

theorem Sjk_full {R : Type} [CommRing R] (X : Nat → R) (W : R) (s k : Nat) :
    Sjk X W 0 s 0 k = ∑ t in Finset.range (2 ^ s), X t * W ^ (t * k) := by
  unfold Sjk
  apply Finset.sum_congr rfl
  intro t _
  simp [rev]

/-! ## The butterfly loops -/

/-- One butterfly, read in `ℂ`: cell `p+k` receives `a + w b` and cell `q+k`
receives `a - w b`, where `a`, `b` are the old cells `p+k`, `q+k`. -/
theorem butterfly_toC (om : Nat → complex ℝ) (p q dom k : Nat) (d : Nat → complex ℝ)
    (hpq : p + k ≠ q + k) (idx : Nat) :
    toC (cfft_engine.butterfly om p q dom k d idx)
      = if idx = p + k then toC (d (p + k)) + toC (om (k * dom)) * toC (d (q + k))
        else if idx = q + k then toC (d (p + k)) - toC (om (k * dom)) * toC (d (q + k))
        else toC (d idx) := by
  unfold cfft_engine.butterfly
  simp only [Function.update_apply, Function.update_same, Function.update_idem]
  by_cases h1 : idx = p + k
  · simp only [if_pos h1, if_neg hpq]
    apply Complex.ext <;> simp [toC]
  · by_cases h2 : idx = q + k
    · simp only [if_neg h1, if_pos h2, if_neg hpq]
      apply Complex.ext <;> simp [toC]
    · simp only [if_neg h1, if_neg h2]

theorem block_index_inj (H a b u v : Nat) (hu : u < H) (hv : v < H)
    (e : a * H + u = b * H + v) : a = b ∧ u = v := by
  have hab : a = b := by
    rcases Nat.lt_trichotomy a b with h | h | h
    · exfalso
      have h1 : (a + 1) * H ≤ b * H := Nat.mul_le_mul_right H h
      have h2 : (a + 1) * H = a * H + H := by ring
      omega
    · exact h
    · exfalso
      have h1 : (b + 1) * H ≤ a * H := Nat.mul_le_mul_right H h
      have h2 : (b + 1) * H = b * H + H := by ring
      omega
  subst hab
  exact ⟨rfl, by omega⟩

/-- The inner loop over `k` for block `j`, started in a state where the blocks
before `j` are already combined: after `k0` iterations the pairs `(j, r)`,
`r < k0`, are combined as well. `D0` is the data at the start of the stage. -/
theorem block_spec (om : Nat → complex ℝ) (h dom j : Nat) (hh : 0 < h)
    (D0 t : Nat → complex ℝ)
    (ht : ∀ j2 r, r < h →
      toC (t (j2 * h * 2 + r))
        = (if j2 < j then
            toC (D0 (j2 * h * 2 + r)) + toC (om (r * dom)) * toC (D0 (j2 * h * 2 + h + r))
          else toC (D0 (j2 * h * 2 + r))) ∧
      toC (t (j2 * h * 2 + h + r))
        = (if j2 < j then
            toC (D0 (j2 * h * 2 + r)) - toC (om (r * dom)) * toC (D0 (j2 * h * 2 + h + r))
          else toC (D0 (j2 * h * 2 + h + r))))
    (k0 : Nat) (hk0 : k0 ≤ h) :
    ∀ j2 r, r < h →
      toC (forLoop k0 (fun k data =>
          cfft_engine.butterfly om (j * h * 2) (j * h * 2 + h) dom k data) t (j2 * h * 2 + r))
        = (if j2 < j ∨ (j2 = j ∧ r < k0) then
            toC (D0 (j2 * h * 2 + r)) + toC (om (r * dom)) * toC (D0 (j2 * h * 2 + h + r))
          else toC (D0 (j2 * h * 2 + r))) ∧
      toC (forLoop k0 (fun k data =>
          cfft_engine.butterfly om (j * h * 2) (j * h * 2 + h) dom k data) t
            (j2 * h * 2 + h + r))
        = (if j2 < j ∨ (j2 = j ∧ r < k0) then
            toC (D0 (j2 * h * 2 + r)) - toC (om (r * dom)) * toC (D0 (j2 * h * 2 + h + r))
          else toC (D0 (j2 * h * 2 + h + r))) := by
  induction k0 with
  | zero =>
    intro j2 r hr
    have e : (j2 < j ∨ (j2 = j ∧ r < 0)) ↔ j2 < j := by omega
    simp only [forLoop_zero, e]
    exact ht j2 r hr
  | succ k0 ih =>
    have ih2 := ih (Nat.le_of_succ_le hk0)
    have hk : k0 < h := hk0
    intro j2 r hr
    rw [forLoop_succ]
    have hpq : j * h * 2 + k0 ≠ j * h * 2 + h + k0 := by omega
    have hcur := ih2 j k0 hk
    have c0 : ¬ (j < j ∨ (j = j ∧ k0 < k0)) := by omega
    rw [if_neg c0, if_neg c0] at hcur
    simp only [butterfly_toC _ _ _ _ _ _ hpq, hcur.1, hcur.2]
    by_cases hsame : j2 = j ∧ r = k0
    · obtain ⟨hj, hr0⟩ := hsame
      subst hj
      subst hr0
      have c1 : j2 < j2 ∨ (j2 = j2 ∧ r < r + 1) := by omega
      have c2 : ¬ (j2 * h * 2 + h + r = j2 * h * 2 + r) := by omega
      rw [if_pos c1, if_pos c1]
      refine ⟨?_, ?_⟩
      · rw [if_pos rfl]
      · rw [if_neg c2, if_pos rfl]
    · have n1 : ¬ (j2 * h * 2 + r = j * h * 2 + k0) := by
        intro e
        have := block_index_inj (h * 2) j2 j r k0 (by omega) (by omega)
          (by rw [← Nat.mul_assoc, ← Nat.mul_assoc]; exact e)
        exact hsame this
      have n2 : ¬ (j2 * h * 2 + r = j * h * 2 + h + k0) := by
        intro e
        have := block_index_inj (h * 2) j2 j r (h + k0) (by omega) (by omega)
          (by rw [← Nat.mul_assoc, ← Nat.mul_assoc]; omega)
        omega
      have n3 : ¬ (j2 * h * 2 + h + r = j * h * 2 + k0) := by
        intro e
        have := block_index_inj (h * 2) j2 j (h + r) k0 (by omega) (by omega)
          (by rw [← Nat.mul_assoc, ← Nat.mul_assoc]; omega)
        omega
      have n4 : ¬ (j2 * h * 2 + h + r = j * h * 2 + h + k0) := by
        intro e
        have := block_index_inj (h * 2) j2 j (h + r) (h + k0) (by omega) (by omega)
          (by rw [← Nat.mul_assoc, ← Nat.mul_assoc]; omega)
        exact hsame ⟨this.1, by omega⟩
      have e : (j2 < j ∨ (j2 = j ∧ r < k0 + 1)) ↔ (j2 < j ∨ (j2 = j ∧ r < k0)) := by omega
      simp only [if_neg n1, if_neg n2, if_neg n3, if_neg n4, e]
      exact ih2 j2 r hr

/-- The loop over the blocks of one stage: after `j0` blocks, the pairs of the
blocks `j < j0` are combined and the others still hold the data `D0` the stage
started with. -/
theorem stage_spec (om : Nat → complex ℝ) (h dom : Nat) (hh : 0 < h)
    (D0 : Nat → complex ℝ) (j0 : Nat) :
    ∀ j2 r, r < h →
      toC (forLoop j0 (fun j data => forLoop h (fun k data =>
          cfft_engine.butterfly om (j * h * 2) (j * h * 2 + h) dom k data) data) D0
            (j2 * h * 2 + r))
        = (if j2 < j0 then
            toC (D0 (j2 * h * 2 + r)) + toC (om (r * dom)) * toC (D0 (j2 * h * 2 + h + r))
          else toC (D0 (j2 * h * 2 + r))) ∧
      toC (forLoop j0 (fun j data => forLoop h (fun k data =>
          cfft_engine.butterfly om (j * h * 2) (j * h * 2 + h) dom k data) data) D0
            (j2 * h * 2 + h + r))
        = (if j2 < j0 then
            toC (D0 (j2 * h * 2 + r)) - toC (om (r * dom)) * toC (D0 (j2 * h * 2 + h + r))
          else toC (D0 (j2 * h * 2 + h + r))) := by
  induction j0 with
  | zero =>
    intro j2 r _
    have c : ¬ (j2 < 0) := by omega
    simp only [forLoop_zero, if_neg c, and_self]
  | succ j0 ih =>
    intro j2 r hr
    rw [forLoop_succ]
    have hb := block_spec om h dom j0 hh D0 _ ih h (Nat.le_refl h) j2 r hr
    have e : (j2 < j0 ∨ (j2 = j0 ∧ r < h)) ↔ j2 < j0 + 1 := by omega
    simp only [e] at hb
    exact hb

/-- Invariant of the stage loop: after `s` stages, block `j` (of size `2^s`)
holds the size-`2^s` transform `Sjk X Z (m - s) s j`. -/
theorem stages_inv (om : Nat → complex ℝ) (m : Nat) (Z : ℂ) (X : Nat → ℂ)
    (hom : ∀ i, i < 2 ^ m → toC (om i) = Z ^ i) (hZ : 0 < m → Z ^ (2 ^ (m - 1)) = -1)
    (D0 : Nat → complex ℝ) (hD0 : ∀ j, j < 2 ^ m → toC (D0 j) = X (rev m j))
    (s : Nat) (hs : s ≤ m) :
    ∀ j k, j < 2 ^ (m - s) → k < 2 ^ s →
      toC (forLoop s (fun i data =>
        forLoop (2 ^ (m - 1 - i)) (fun j data =>
          forLoop (2 ^ i) (fun k data =>
            cfft_engine.butterfly om (j * 2 ^ i * 2) (j * 2 ^ i * 2 + 2 ^ i) (2 ^ (m - 1 - i)) k
              data) data) data) D0 (j * 2 ^ s + k))
        = Sjk X Z (m - s) s j k := by
  induction s with
  | zero =>
    intro j k hj hk
    have hk0 : k = 0 := by
      rw [pow_zero] at hk
      omega
    subst hk0
    rw [forLoop_zero, pow_zero, Nat.mul_one, Nat.add_zero, Nat.sub_zero, Sjk_zero]
    exact hD0 j hj
  | succ s ih =>
    have ih2 := ih (Nat.le_of_succ_le hs)
    obtain ⟨b, hb⟩ : ∃ b, m = s + 1 + b := ⟨m - (s + 1), by omega⟩
    have e1 : m - (s + 1) = b := by omega
    have e2 : m - s = b + 1 := by omega
    have e3 : m - 1 - s = b := by omega
    have hm : 0 < m := by omega
    have hZ2 : Z ^ (2 ^ (b + s)) = -1 := by
      have := hZ hm
      have e4 : m - 1 = b + s := by omega
      rw [e4] at this
      exact this
    intro j k hj hk
    rw [e1] at hj
    rw [forLoop_succ, e1, e3]
    rw [e2] at ih2
    have hpos : 0 < 2 ^ s := Nat.two_pow_pos s
    have hst := stage_spec om (2 ^ s) (2 ^ b) hpos
      (forLoop s (fun i data =>
        forLoop (2 ^ (m - 1 - i)) (fun j data =>
          forLoop (2 ^ i) (fun k data =>
            cfft_engine.butterfly om (j * 2 ^ i * 2) (j * 2 ^ i * 2 + 2 ^ i) (2 ^ (m - 1 - i)) k
              data) data) data) D0) (2 ^ b) j
    have hj0 : 2 * j < 2 ^ (b + 1) := by
      rw [pow_succ]
      omega
    have hj1 : 2 * j + 1 < 2 ^ (b + 1) := by
      rw [pow_succ]
      omega
    have hsb : 2 ^ s * 2 ^ b < 2 ^ m := by
      rw [← pow_add, hb]
      exact Nat.pow_lt_pow_right (by norm_num) (by omega)
    by_cases hlow : k < 2 ^ s
    · have h1 := (hst k hlow).1
      rw [if_pos hj] at h1
      have i0 : j * 2 ^ (s + 1) + k = j * 2 ^ s * 2 + k := by
        rw [pow_succ]
        ring
      have i1 : j * 2 ^ s * 2 + k = 2 * j * 2 ^ s + k := by ring
      have i2 : j * 2 ^ s * 2 + 2 ^ s + k = (2 * j + 1) * 2 ^ s + k := by ring
      have hk2 : k * 2 ^ b < 2 ^ m :=
        lt_of_le_of_lt (Nat.mul_le_mul_right _ (Nat.le_of_lt hlow)) hsb
      rw [i0, h1, i1, i2, ih2 (2 * j) k hj0 hlow, ih2 (2 * j + 1) k hj1 hlow, hom _ hk2,
        Sjk_step, Nat.mul_comm k (2 ^ b)]
    · obtain ⟨r, hr⟩ : ∃ r, k = r + 2 ^ s := ⟨k - 2 ^ s, by omega⟩
      have hr2 : r < 2 ^ s := by
        rw [pow_succ] at hk
        omega
      have h1 := (hst r hr2).2
      rw [if_pos hj] at h1
      have i0 : j * 2 ^ (s + 1) + k = j * 2 ^ s * 2 + 2 ^ s + r := by
        rw [pow_succ, hr]
        ring
      have i1 : j * 2 ^ s * 2 + r = 2 * j * 2 ^ s + r := by ring
      have i2 : j * 2 ^ s * 2 + 2 ^ s + r = (2 * j + 1) * 2 ^ s + r := by ring
      have hk2 : r * 2 ^ b < 2 ^ m :=
        lt_of_le_of_lt (Nat.mul_le_mul_right _ (Nat.le_of_lt hr2)) hsb
      rw [i0, h1, i1, i2, ih2 (2 * j) r hj0 hr2, ih2 (2 * j + 1) r hj1 hr2, hom _ hk2, hr,
        Sjk_step_hi X Z b s j r hZ2, Nat.mul_comm r (2 ^ b)]

/-! ## The scaling loop -/

theorem scale_spec {T : Type} [Field T] (e : cfft_engine T) (d : Nat → complex T) (j : Nat) :
    e.scale d j
      = if j < e.n then ⟨(d j).re * (1 / (e.n : T)), (d j).im * (1 / (e.n : T))⟩ else d j := by
  unfold cfft_engine.scale
  simp only [Function.update_same, Function.update_idem]
  generalize (1 : T) / (e.n : T) = c
  generalize e.n = n
  induction n with
  | zero => simp [forLoop_zero]
  | succ k ih =>
    rw [forLoop_succ, Function.update_apply]
    by_cases hj : j = k
    · subst hj
      have h1 : ¬ (j < j) := by omega
      rw [if_pos rfl, if_pos (Nat.lt_succ_self j), ih, if_neg h1]
    · have e1 : (j < k + 1) ↔ (j < k) := by omega
      rw [if_neg hj, ih]
      simp only [e1]

theorem toC_scale (z : complex ℝ) (c : ℝ) : toC ⟨z.re * c, z.im * c⟩ = toC z * (c : ℂ) := by
  apply Complex.ext <;> simp [toC]

/-! ## The twiddle tables in `ℂ` -/

theorem toC_cos_sin (a : ℝ) : toC ⟨Real.cos a, Real.sin a⟩ = Complex.exp ((a : ℂ) * Complex.I) := by
  unfold toC
  rw [Complex.mk_eq_add_mul_I, Complex.ofReal_cos, Complex.ofReal_sin, Complex.exp_mul_I]

theorem toC_cos_neg_sin (a : ℝ) :
    toC ⟨Real.cos a, - Real.sin a⟩ = (starRingEnd ℂ) (Complex.exp ((a : ℂ) * Complex.I)) := by
  rw [← toC_cos_sin]
  apply Complex.ext <;> simp [toC]

/-- De Moivre for the forward table: entry `i` is the `i`-th power of
`exp(2πi/n)`. -/
theorem twiddle_pow (n i : Nat) :
    toC ⟨Real.cos (2 * Real.pi * (i : ℝ) / (n : ℝ)), Real.sin (2 * Real.pi * (i : ℝ) / (n : ℝ))⟩
      = Complex.exp (2 * Real.pi * Complex.I / n) ^ i := by
  rw [toC_cos_sin, ← Complex.exp_nat_mul]
  congr 1
  push_cast
  ring

theorem twiddle_rev_pow (n i : Nat) :
    toC ⟨Real.cos (2 * Real.pi * (i : ℝ) / (n : ℝ)),
        - Real.sin (2 * Real.pi * (i : ℝ) / (n : ℝ))⟩
      = (starRingEnd ℂ) (Complex.exp (2 * Real.pi * Complex.I / n)) ^ i := by
  rw [toC_cos_neg_sin, ← map_pow, ← Complex.exp_nat_mul]
  congr 2
  push_cast
  ring

theorem exp_half_turn (m : Nat) (hm : 0 < m) :
    Complex.exp (2 * Real.pi * Complex.I / ((2 ^ m : Nat) : ℂ)) ^ (2 ^ (m - 1)) = -1 := by
  obtain ⟨k, hk⟩ : ∃ k, m = k + 1 := ⟨m - 1, by omega⟩
  subst hk
  rw [← Complex.exp_nat_mul, ← Complex.exp_pi_mul_I]
  congr 1
  have h2 : ((2 : ℂ) ^ k) ≠ 0 := pow_ne_zero _ (by norm_num)
  simp only [Nat.add_sub_cancel]
  push_cast
  field_simp
  ring

/-! ## `cfft_engine::inplace` computes the scaled discrete Fourier transform -/

/-- The transform computed by `inplace`, for any engine whose fields are those
of a size-`2^m` engine and whose selected twiddle table holds the powers of a
root `Z` with `Z ^ (n/2) = -1`. -/
theorem inplace_spec_gen (e : cfft_engine ℝ) (m : Nat) (hn : e.n = 2 ^ m) (hlogn : e.logn = m)
    (hbr : ∀ i, i < 2 ^ m → e.bitrev i = rev m i) (x : Nat → complex ℝ) (reverse : Bool)
    (Z : ℂ) (hom : ∀ i, i < 2 ^ m → toC ((if reverse then e.omega_rev else e.omega) i) = Z ^ i)
    (hZ : 0 < m → Z ^ (2 ^ (m - 1)) = -1) (k : Nat) (hk : k < 2 ^ m) :
    toC (e.inplace x reverse k)
      = (∑ j in Finset.range (2 ^ m), toC (x j) * Z ^ (j * k)) * (((1 : ℝ) / ((2 ^ m : Nat) : ℝ) : ℝ) : ℂ) := by
  have hinv : ∀ i, i < e.n → e.bitrev i < e.n ∧ e.bitrev (e.bitrev i) = i := by
    intro i hi
    rw [hn] at hi
    rw [hbr i hi, hn, hbr _ (rev_lt m i)]
    exact ⟨rev_lt m i, rev_rev m i hi⟩
  have hperm : ∀ j, j < 2 ^ m → toC (e.permute x j) = (fun t => toC (x t)) (rev m j) := by
    intro j hj
    rw [permute_spec e x hinv j (by rw [hn]; exact hj), hbr j hj]
  have hst := stages_inv (if reverse then e.omega_rev else e.omega) m Z (fun t => toC (x t)) hom hZ
    (e.permute x) hperm m (Nat.le_refl m) 0 k (by simp) hk
  rw [Nat.sub_self, Sjk_full, Nat.zero_mul, Nat.zero_add] at hst
  unfold cfft_engine.inplace
  rw [scale_spec, if_pos (by rw [hn]; exact hk), toC_scale, hn]
  congr 1
  rw [← hst]
  unfold cfft_engine.stages
  simp only [Nat.one_shiftLeft, hlogn]

theorem ctor_two_pow_logn {T : Type} [Field T] (sqrt cosf sinf : T → T) (M_PI : T) (m : Nat) :
    (cfft_engine.ctor sqrt cosf sinf M_PI (2 ^ m)).logn = m := by
  rw [ctor_logn, log2_loop_two_pow, Nat.zero_add]

theorem ctor_two_pow_bitrev {T : Type} [Field T] (sqrt cosf sinf : T → T) (M_PI : T)
    (m i : Nat) (hi : i < 2 ^ m) :
    (cfft_engine.ctor sqrt cosf sinf M_PI (2 ^ m)).bitrev i = rev m i := by
  rw [ctor_bitrev, if_pos hi, log2_loop_two_pow, Nat.zero_add]

/-- The transform computed by a constructed engine of size `2^m` over the reals,
with the root written as `exp(2πi/n)` (forward) or its conjugate (inverse). -/
theorem inplace_dft_exp (sqrt : ℝ → ℝ) (m : Nat) (x : Nat → complex ℝ) (reverse : Bool)
    (k : Nat) (hk : k < 2 ^ m) :
    toC ((cfft_engine.ctor sqrt Real.cos Real.sin Real.pi (2 ^ m)).inplace x reverse k)
      = (∑ j in Finset.range (2 ^ m), toC (x j) *
          (if reverse then
            (starRingEnd ℂ) (Complex.exp (2 * Real.pi * Complex.I / ((2 ^ m : Nat) : ℂ)))
           else Complex.exp (2 * Real.pi * Complex.I / ((2 ^ m : Nat) : ℂ))) ^ (j * k))
        * (((1 : ℝ) / ((2 ^ m : Nat) : ℝ) : ℝ) : ℂ) := by
  apply inplace_spec_gen _ m (ctor_n _ _ _ _ _) (ctor_two_pow_logn _ _ _ _ m)
    (ctor_two_pow_bitrev _ _ _ _ m) x reverse _ _ _ k hk
  · intro i hi
    cases reverse
    · simp only [Bool.false_eq_true, if_false]
      rw [(ctor_tables sqrt Real.cos Real.sin Real.pi (2 ^ m) i).1, if_pos hi, twiddle_pow]
    · simp only [if_true]
      rw [(ctor_tables sqrt Real.cos Real.sin Real.pi (2 ^ m) i).2, if_pos hi, twiddle_rev_pow]
  · intro hm
    cases reverse
    · simp only [Bool.false_eq_true, if_false]
      exact exp_half_turn m hm
    · simp only [if_true]
      rw [← map_pow, exp_half_turn m hm, map_neg, map_one]

/-! ## Round trip -/

theorem conj_exp_root (n : Nat) :
    (starRingEnd ℂ) (Complex.exp (2 * Real.pi * Complex.I / (n : ℂ)))
      = (Complex.exp (2 * Real.pi * Complex.I / (n : ℂ)))⁻¹ := by
  rw [← Complex.exp_conj, ← Complex.exp_neg]
  congr 1
  simp only [map_div₀, map_mul, Complex.conj_I, Complex.conj_ofReal, map_natCast, map_ofNat]
  ring

/-- Orthogonality of the powers of `exp(2πi/n)`. -/
theorem root_orthogonality (n : Nat) (hn : 0 < n) (j l : Nat) (hj : j < n) (hl : l < n) :
    ∑ k in Finset.range n, Complex.exp (2 * Real.pi * Complex.I / (n : ℂ)) ^ (j * k)
        * (starRingEnd ℂ) (Complex.exp (2 * Real.pi * Complex.I / (n : ℂ))) ^ (k * l)
      = if j = l then (n : ℂ) else 0 := by
  have hprim := Complex.isPrimitiveRoot_exp n (Nat.pos_iff_ne_zero.mp hn)
  rw [conj_exp_root]
  generalize Complex.exp (2 * Real.pi * Complex.I / (n : ℂ)) = Z at hprim
  have hZ0 : Z ≠ 0 := hprim.ne_zero (Nat.pos_iff_ne_zero.mp hn)
  have hterm : ∀ k, Z ^ (j * k) * Z⁻¹ ^ (k * l) = (Z ^ j * Z⁻¹ ^ l) ^ k := by
    intro k
    rw [mul_pow, ← pow_mul, ← pow_mul, Nat.mul_comm k l]
  simp only [hterm]
  by_cases hjl : j = l
  · subst hjl
    have h1 : Z ^ j * Z⁻¹ ^ j = 1 := by
      rw [← mul_pow, mul_inv_cancel₀ hZ0, one_pow]
    rw [h1, if_pos rfl]
    simp
  · rw [if_neg hjl]
    have hu : Z ^ j * Z⁻¹ ^ l ≠ 1 := by
      intro h
      apply hjl
      apply hprim.pow_inj hj hl
      have h2 : Z ^ l ≠ 0 := pow_ne_zero _ hZ0
      rw [inv_pow] at h
      field_simp at h
      exact h
    have hun : (Z ^ j * Z⁻¹ ^ l) ^ n = 1 := by
      rw [mul_pow, ← pow_mul, ← pow_mul, Nat.mul_comm j n, Nat.mul_comm l n, pow_mul, pow_mul,
        inv_pow, hprim.pow_eq_one]
      simp
    have hg := geom_sum_mul (Z ^ j * Z⁻¹ ^ l) n
    rw [hun, sub_self] at hg
    rcases mul_eq_zero.mp hg with h | h
    · exact h
    · exact absurd (sub_eq_zero.mp h) hu

/-- Forward then inverse transform returns the input scaled by `1/n`. -/
theorem inplace_roundtrip (sqrt : ℝ → ℝ) (m : Nat) (x : Nat → complex ℝ) (l : Nat)
    (hl : l < 2 ^ m) :
    toC ((cfft_engine.ctor sqrt Real.cos Real.sin Real.pi (2 ^ m)).inplace
          ((cfft_engine.ctor sqrt Real.cos Real.sin Real.pi (2 ^ m)).inplace x false) true l)
      = toC (x l) * (((1 : ℝ) / ((2 ^ m : Nat) : ℝ) : ℝ) : ℂ) := by
  rw [inplace_dft_exp sqrt m _ true l hl]
  have hy : ∀ k ∈ Finset.range (2 ^ m),
      toC ((cfft_engine.ctor sqrt Real.cos Real.sin Real.pi (2 ^ m)).inplace x false k)
          * (if true = true then
              (starRingEnd ℂ) (Complex.exp (2 * Real.pi * Complex.I / ((2 ^ m : Nat) : ℂ)))
             else Complex.exp (2 * Real.pi * Complex.I / ((2 ^ m : Nat) : ℂ))) ^ (k * l)
        = ∑ j in Finset.range (2 ^ m), (((1 : ℝ) / ((2 ^ m : Nat) : ℝ) : ℝ) : ℂ) * (toC (x j) *
            (Complex.exp (2 * Real.pi * Complex.I / ((2 ^ m : Nat) : ℂ)) ^ (j * k)
              * (starRingEnd ℂ) (Complex.exp (2 * Real.pi * Complex.I / ((2 ^ m : Nat) : ℂ)))
                  ^ (k * l))) := by
    intro k hk
    rw [inplace_dft_exp sqrt m x false k (Finset.mem_range.mp hk)]
    simp only [if_true, Bool.false_eq_true, if_false]
    rw [Finset.sum_mul, Finset.sum_mul]
    apply Finset.sum_congr rfl
    intro j _
    ring
  rw [Finset.sum_congr rfl hy, Finset.sum_comm]
  have hn : 0 < 2 ^ m := Nat.two_pow_pos m
  have hin : ∀ j ∈ Finset.range (2 ^ m),
      ∑ k in Finset.range (2 ^ m), (((1 : ℝ) / ((2 ^ m : Nat) : ℝ) : ℝ) : ℂ) * (toC (x j) *
            (Complex.exp (2 * Real.pi * Complex.I / ((2 ^ m : Nat) : ℂ)) ^ (j * k)
              * (starRingEnd ℂ) (Complex.exp (2 * Real.pi * Complex.I / ((2 ^ m : Nat) : ℂ)))
                  ^ (k * l)))
        = if j = l then toC (x j) else 0 := by
    intro j hj
    rw [← Finset.mul_sum, ← Finset.mul_sum,
      root_orthogonality (2 ^ m) hn j l (Finset.mem_range.mp hj) hl]
    have h2 : (((2 ^ m : Nat) : ℝ) : ℂ) ≠ 0 := by
      norm_cast
      exact Nat.pos_iff_ne_zero.mp hn
    by_cases hjl : j = l
    · rw [if_pos hjl, if_pos hjl]
      push_cast
      push_cast at h2
      field_simp
    · rw [if_neg hjl, if_neg hjl]
      simp
  rw [Finset.sum_congr rfl hin, Finset.sum_ite_eq' (Finset.range (2 ^ m)) l (fun j => toC (x j)),
    if_pos (Finset.mem_range.mpr hl)]

/-! ## The claims about `cfft_engine` -/

theorem toC_re (z : complex ℝ) : (toC z).re = z.re := rfl

theorem toC_im (z : complex ℝ) : (toC z).im = z.im := rfl

/-- The amended C1: for `n = 2^m`, forward then inverse `inplace` returns the
input scaled by `1/n` (each transform scales by `1/n` and the unnormalised pair
multiplies by `n`): `result[i] = x[i] / n` for every `i < n`, in exact
arithmetic. -/
theorem cfft_roundtrip_scaled (m : Nat) (x : Nat → complex ℝ) (i : Nat) (hi : i < 2 ^ m) :
    ((cfft_engine.ctor Real.sqrt Real.cos Real.sin Real.pi (2 ^ m)).inplace
        ((cfft_engine.ctor Real.sqrt Real.cos Real.sin Real.pi (2 ^ m)).inplace x false) true
          i).re = (x i).re / ((2 ^ m : Nat) : ℝ) ∧
    ((cfft_engine.ctor Real.sqrt Real.cos Real.sin Real.pi (2 ^ m)).inplace
        ((cfft_engine.ctor Real.sqrt Real.cos Real.sin Real.pi (2 ^ m)).inplace x false) true
          i).im = (x i).im / ((2 ^ m : Nat) : ℝ) := by
  have h := inplace_roundtrip Real.sqrt m x i hi
  have hre := congrArg Complex.re h
  have him := congrArg Complex.im h
  rw [toC_re, Complex.mul_re, toC_re, toC_im, Complex.ofReal_re, Complex.ofReal_im] at hre
  rw [toC_im, Complex.mul_im, toC_re, toC_im, Complex.ofReal_re, Complex.ofReal_im] at him
  rw [hre, him]
  constructor <;> ring

theorem cfft_roundtrip_scaled_witness :
    (0 : Nat) < 2 ^ 1 ∧
    ((cfft_engine.ctor Real.sqrt Real.cos Real.sin Real.pi (2 ^ 1)).inplace
        ((cfft_engine.ctor Real.sqrt Real.cos Real.sin Real.pi (2 ^ 1)).inplace
          (impulse ℝ) false) true 0).re = (impulse ℝ 0).re / ((2 ^ 1 : Nat) : ℝ) :=
  ⟨by norm_num, (cfft_roundtrip_scaled 1 (impulse ℝ) 0 (by norm_num)).1⟩

/-- C1 as stated fails: for `n = 2` and `x = [1, 0]`, forward then inverse
leaves `1/2` in cell `0`, not `x[0] / n² = 1/4`. -/
theorem cfft_roundtrip_counterexample :
    ((cfft_engine.ctor Real.sqrt Real.cos Real.sin Real.pi (2 ^ 1)).inplace
        ((cfft_engine.ctor Real.sqrt Real.cos Real.sin Real.pi (2 ^ 1)).inplace
          (impulse ℝ) false) true 0).re = 1 / 2 ∧
    ¬ ((cfft_engine.ctor Real.sqrt Real.cos Real.sin Real.pi (2 ^ 1)).inplace
        ((cfft_engine.ctor Real.sqrt Real.cos Real.sin Real.pi (2 ^ 1)).inplace
          (impulse ℝ) false) true 0).re = (impulse ℝ 0).re / (((2 ^ 1 : Nat) : ℝ)) ^ 2 := by
  have h := inplace_roundtrip Real.sqrt 1 (impulse ℝ) 0 (by norm_num)
  have hre := congrArg Complex.re h
  rw [toC_re, Complex.mul_re, toC_re, toC_im, Complex.ofReal_re, Complex.ofReal_im] at hre
  rw [hre]
  simp only [impulse, if_true]
  norm_num

/-- C2: for `n = 2^m` and either direction, with the tables holding
`omega[k] = (cos(2πk/n), sin(2πk/n))` and `omega_rev[k]` its conjugate,
`inplace` leaves `data[k] = (1/n) Σ_{j<n} x[j] W^(jk)` for every `k < n`, where
`W = omega[1]` for the forward call and `W = conj(omega[1])` for the inverse
call (exact arithmetic, samples read in `ℂ`). -/
theorem cfft_inplace_dft (m : Nat) (x : Nat → complex ℝ) (reverse : Bool) (k : Nat)
    (hk : k < 2 ^ m) :
    (cfft_engine.ctor Real.sqrt Real.cos Real.sin Real.pi (2 ^ m)).omega k
      = ⟨Real.cos (2 * Real.pi * (k : ℝ) / ((2 ^ m : Nat) : ℝ)),
         Real.sin (2 * Real.pi * (k : ℝ) / ((2 ^ m : Nat) : ℝ))⟩ ∧
    (cfft_engine.ctor Real.sqrt Real.cos Real.sin Real.pi (2 ^ m)).omega_rev k
      = ⟨Real.cos (2 * Real.pi * (k : ℝ) / ((2 ^ m : Nat) : ℝ)),
         - Real.sin (2 * Real.pi * (k : ℝ) / ((2 ^ m : Nat) : ℝ))⟩ ∧
    toC ((cfft_engine.ctor Real.sqrt Real.cos Real.sin Real.pi (2 ^ m)).inplace x reverse k)
      = (1 / ((2 ^ m : Nat) : ℂ)) * ∑ j in Finset.range (2 ^ m), toC (x j) *
          (if reverse then
            (starRingEnd ℂ)
              (toC ((cfft_engine.ctor Real.sqrt Real.cos Real.sin Real.pi (2 ^ m)).omega 1))
           else toC ((cfft_engine.ctor Real.sqrt Real.cos Real.sin Real.pi (2 ^ m)).omega 1))
            ^ (j * k) := by
  have ht := ctor_tables Real.sqrt Real.cos Real.sin Real.pi (2 ^ m) k
  rw [if_pos hk, if_pos hk] at ht
  refine ⟨ht.1, ht.2, ?_⟩
  rw [inplace_dft_exp Real.sqrt m x reverse k hk, mul_comm]
  congr 1
  · push_cast
    rfl
  · apply Finset.sum_congr rfl
    intro j hj
    congr 1
    rcases Nat.eq_zero_or_pos m with hm | hm
    · subst hm
      have hj0 : j = 0 := by
        have := Finset.mem_range.mp hj
        omega
      rw [hj0, Nat.zero_mul, pow_zero, pow_zero]
    · have h1 : 1 < 2 ^ m := Nat.one_lt_two_pow (Nat.pos_iff_ne_zero.mp hm)
      have hw : toC ((cfft_engine.ctor Real.sqrt Real.cos Real.sin Real.pi (2 ^ m)).omega 1)
          = Complex.exp (2 * Real.pi * Complex.I / ((2 ^ m : Nat) : ℂ)) := by
        rw [(ctor_tables Real.sqrt Real.cos Real.sin Real.pi (2 ^ m) 1).1, if_pos h1,
          twiddle_pow, pow_one]
      rw [hw]

theorem cfft_inplace_dft_witness :
    (0 : Nat) < 2 ^ 1 ∧
    toC ((cfft_engine.ctor Real.sqrt Real.cos Real.sin Real.pi (2 ^ 1)).inplace
        (impulse ℝ) true 0)
      = (1 / ((2 ^ 1 : Nat) : ℂ)) * ∑ j in Finset.range (2 ^ 1), toC (impulse ℝ j) *
          (if true = true then
            (starRingEnd ℂ)
              (toC ((cfft_engine.ctor Real.sqrt Real.cos Real.sin Real.pi (2 ^ 1)).omega 1))
           else toC ((cfft_engine.ctor Real.sqrt Real.cos Real.sin Real.pi (2 ^ 1)).omega 1))
            ^ (j * 0) :=
  ⟨by norm_num, (cfft_inplace_dft 1 (impulse ℝ) true 0 (by norm_num)).2.2⟩

/-- C3: for `n = 2^m`, the forward transform of the impulse (1 at index 0, 0 at
the other indices below `n`) has every output bin equal to `1/n` in the real
part and `0` in the imaginary part. -/
theorem cfft_inplace_impulse (m : Nat) (x : Nat → complex ℝ) (hx0 : x 0 = ⟨1, 0⟩)
    (hx : ∀ i, 0 < i → i < 2 ^ m → x i = ⟨0, 0⟩) (k : Nat) (hk : k < 2 ^ m) :
    ((cfft_engine.ctor Real.sqrt Real.cos Real.sin Real.pi (2 ^ m)).inplace x false k).re
      = 1 / ((2 ^ m : Nat) : ℝ) ∧
    ((cfft_engine.ctor Real.sqrt Real.cos Real.sin Real.pi (2 ^ m)).inplace x false k).im
      = 0 := by
  have h := inplace_dft_exp Real.sqrt m x false k hk
  have hsum : ∑ j in Finset.range (2 ^ m), toC (x j) *
      (if false = true then
        (starRingEnd ℂ) (Complex.exp (2 * Real.pi * Complex.I / ((2 ^ m : Nat) : ℂ)))
       else Complex.exp (2 * Real.pi * Complex.I / ((2 ^ m : Nat) : ℂ))) ^ (j * k) = 1 := by
    rw [Finset.sum_eq_single 0]
    · rw [hx0, Nat.zero_mul, pow_zero, mul_one]
      apply Complex.ext <;> simp [toC]
    · intro j hj hj0
      rw [hx j (Nat.pos_of_ne_zero hj0) (Finset.mem_range.mp hj)]
      have : toC ⟨0, 0⟩ = 0 := by
        apply Complex.ext <;> simp [toC]
      rw [this, zero_mul]
    · intro h0
      exact absurd (Finset.mem_range.mpr (Nat.two_pow_pos m)) h0
  rw [hsum, one_mul] at h
  have hre := congrArg Complex.re h
  have him := congrArg Complex.im h
  rw [toC_re, Complex.ofReal_re] at hre
  rw [toC_im, Complex.ofReal_im] at him
  exact ⟨hre, him⟩

theorem cfft_inplace_impulse_witness :
    impulse ℝ 0 = ⟨1, 0⟩ ∧ (∀ i, 0 < i → i < 2 ^ 2 → impulse ℝ i = ⟨0, 0⟩) ∧ 3 < 2 ^ 2 ∧
    ((cfft_engine.ctor Real.sqrt Real.cos Real.sin Real.pi (2 ^ 2)).inplace
        (impulse ℝ) false 3).re = 1 / ((2 ^ 2 : Nat) : ℝ) ∧
    ((cfft_engine.ctor Real.sqrt Real.cos Real.sin Real.pi (2 ^ 2)).inplace
        (impulse ℝ) false 3).im = 0 :=
  ⟨rfl, fun i h0 _ => by simp [impulse, Nat.pos_iff_ne_zero.mp h0], by norm_num,
    cfft_inplace_impulse 2 (impulse ℝ) rfl
      (fun i h0 _ => by simp [impulse, Nat.pos_iff_ne_zero.mp h0]) 3 (by norm_num)⟩

/-! ## The constructor accepts every size -/

theorem log2_loop_eq_log (t l : Nat) : log2_loop t l = l + Nat.log 2 t := by
  induction t using Nat.strong_induction_on generalizing l with
  | _ t ih =>
    rw [log2_loop]
    by_cases h : 1 < t
    · have hlt : t >>> 1 < t := by
        rw [Nat.shiftRight_eq_div_pow, pow_one]
        omega
      rw [if_pos h, ih _ hlt, Nat.shiftRight_eq_div_pow, pow_one, Nat.log_div_base]
      have h1 : 1 ≤ Nat.log 2 t := Nat.log_pos (by norm_num) (by omega)
      omega
    · rw [if_neg h, Nat.log_of_lt (by omega)]
      rfl

theorem three_not_two_pow : ¬ ∃ m : Nat, 3 = 2 ^ m := by
  rintro ⟨m, hm⟩
  cases m with
  | zero => simp at hm
  | succ k =>
    rw [pow_succ] at hm
    omega

/-- C4 as stated fails: the constructor accepts the size `3`, which is not a
power of two, and builds an engine with `n = 3` and `logn = 1`. -/
theorem cfft_ctor_counterexample :
    (∃ e, cfft_engine.construct Real.sqrt Real.cos Real.sin Real.pi 3 = some e ∧ e.n = 3 ∧
      e.logn = 1) ∧ ¬ ∃ m : Nat, 3 = 2 ^ m := by
  refine ⟨⟨_, rfl, rfl, ?_⟩, three_not_two_pow⟩
  rw [ctor_logn, log2_loop_eq_log]
  simp [Nat.log_eq_iff]

/-- The amended C4: the constructor has no size check. For every size `n`, power
of two or not, it produces an engine that stores `n`, has
`logn = floor(log2 n)` (`0` for `n ≤ 1`) and, for every `i < n`, holds in
`bitrev[i]` the reversal of the low `logn` bits of `i`; for `n = 2^m` this gives
`logn = m`. -/
theorem cfft_ctor_total {T : Type} [Field T] (sqrt cosf sinf : T → T) (M_PI : T) (n : Nat) :
    ∃ e, cfft_engine.construct sqrt cosf sinf M_PI n = some e ∧ e.n = n ∧
      e.logn = Nat.log 2 n ∧ (∀ i, i < n → e.bitrev i = rev e.logn i) ∧
      (∀ m, n = 2 ^ m → e.logn = m) := by
  refine ⟨_, rfl, rfl, ?_, ?_, ?_⟩
  · rw [ctor_logn, log2_loop_eq_log, Nat.zero_add]
  · intro i hi
    rw [ctor_bitrev, if_pos hi, ctor_logn]
  · intro m hm
    rw [hm, ctor_two_pow_logn]

/-! ## What `naive_lowpass::run` leaves readable -/

/-- The amended C11: after a `naive_lowpass::run` step with `readable ≥ w` that is
not limited by output space (`writable ≥ readable - w`), exactly the trailing
`w` input samples remain readable: the read cursor advances by `readable - w`
only, and the write cursor and the storage of the input are unchanged. -/
theorem naive_lowpass_run_remaining {T : Type} (K : Type) [AddCommMonoid T] [HMul T K T]
    [One K] [Div K] [NatCast K] (f : naive_lowpass T) (hw : f.w ≤ f.inp.readable)
    (hout : f.inp.readable - f.w ≤ f.out.writable) :
    (naive_lowpass.run K f).inp.readable = f.w ∧
    (naive_lowpass.run K f).inp.rd = f.inp.rd + (f.inp.readable - f.w) ∧
    (naive_lowpass.run K f).inp.wpos = f.inp.wpos ∧
    (naive_lowpass.run K f).inp.mem = f.inp.mem := by
  rw [naive_lowpass_run_eq K f hw]
  have hmin : Min.min (f.inp.readable - f.w) f.out.writable = f.inp.readable - f.w :=
    Nat.min_eq_left hout
  rw [hmin]
  refine ⟨?_, rfl, rfl, rfl⟩
  unfold pipebuf.readable at *
  simp only []
  omega

theorem naive_lowpass_run_remaining_witness :
    exLowpass.w ≤ exLowpass.inp.readable ∧
    exLowpass.inp.readable - exLowpass.w ≤ exLowpass.out.writable ∧
    (naive_lowpass.run ℚ exLowpass).inp.readable = exLowpass.w :=
  ⟨by decide, by decide, (naive_lowpass_run_remaining ℚ exLowpass (by decide) (by decide)).1⟩

/-- C11 as stated fails: for `w = 3`, six readable samples and room for four
outputs, three samples (not `w - 1 = 2`) remain readable after the step. -/
theorem naive_lowpass_run_remaining_counterexample :
    exLowpass.w = 3 ∧ exLowpass.w ≤ exLowpass.inp.readable ∧
    exLowpass.inp.readable - exLowpass.w ≤ exLowpass.out.writable ∧
    (naive_lowpass.run ℚ exLowpass).inp.readable = 3 ∧
    ¬ ((naive_lowpass.run ℚ exLowpass).inp.readable = exLowpass.w - 1) := by
  have h : (naive_lowpass.run ℚ exLowpass).inp.readable = 3 := by
    rw [naive_lowpass_run_eq ℚ exLowpass (by decide)]
    decide
  refine ⟨rfl, by decide, by decide, h, ?_⟩
  rw [h]
  decide

/-! ## `wgn_c::run`: the rejection loop -/

theorem draw_succ_reject {T : Type} [LinearOrderedField T] (rng : Nat → T) (fuel q : Nat)
    (h : ¬ wgn_c.accepted rng q) :
    wgn_c.draw rng (fuel + 1) q = wgn_c.draw rng fuel (q + 2) := by
  unfold wgn_c.accepted at h
  rw [not_not] at h
  rw [wgn_c.draw]
  simp only [if_pos h]

/-- Without an accepted pair ahead, the rejection loop exhausts any fuel. -/
theorem draw_none {T : Type} [LinearOrderedField T] (rng : Nat → T)
    (hrej : ∀ q, ¬ wgn_c.accepted rng q) (fuel q : Nat) : wgn_c.draw rng fuel q = none := by
  induction fuel generalizing q with
  | zero => rfl
  | succ fuel ih => rw [draw_succ_reject rng fuel q (hrej q), ih]

/-! ## `wgn_c::run`: the sample loop -/

/-- Bit `b` of `rev m i` is bit `m - 1 - b` of `i` for `b < m`, and `0` above. -/
theorem rev_testBit (m i b : Nat) :
    (rev m i).testBit b = (decide (b < m) && i.testBit (m - 1 - b)) := by
  induction m generalizing b with
  | zero => simp [rev]
  | succ k ih =>
    rw [rev_succ_high]
    have hc : (i / 2 ^ k) % 2 < 2 := Nat.mod_lt _ (by norm_num)
    cases b with
    | zero =>
      have h1 : (2 * rev k i + i / 2 ^ k % 2) % 2 = i / 2 ^ k % 2 := by omega
      rw [Nat.testBit_zero, h1, Nat.add_sub_cancel, Nat.sub_zero, Nat.testBit_to_div_mod]
      simp
    | succ b =>
      have h1 : (2 * rev k i + i / 2 ^ k % 2) / 2 = rev k i := by omega
      rw [Nat.testBit_succ, h1, ih]
      have h2 : k + 1 - 1 - (b + 1) = k - 1 - b := by omega
      rw [h2]
      by_cases hb : b < k
      · have hb2 : b + 1 < k + 1 := by omega
        simp [hb, hb2]
      · have hb2 : ¬ (b + 1 < k + 1) := by omega
        simp [hb, hb2]

/-- C13: for `n = 2^m` the constructor computes `logn = m`, and for every `i < n`
the entry `bitrev[i]` is the reversal of the low `m` bits of `i` (bit `b` of
`bitrev[i]` is bit `m - 1 - b` of `i` for `b < m`, no bit at or above `m`); so
`bitrev` maps `[0, n)` into itself, is an involution, and is a permutation of
`[0, n)` (injective and onto). -/
theorem cfft_ctor_bitrev_table {T : Type} [Field T] (sqrt cosf sinf : T → T) (M_PI : T)
    (m : Nat) :
    (cfft_engine.ctor sqrt cosf sinf M_PI (2 ^ m)).logn = m ∧
    (∀ i, i < 2 ^ m →
      (∀ b, ((cfft_engine.ctor sqrt cosf sinf M_PI (2 ^ m)).bitrev i).testBit b
        = (decide (b < m) && i.testBit (m - 1 - b))) ∧
      (cfft_engine.ctor sqrt cosf sinf M_PI (2 ^ m)).bitrev i < 2 ^ m ∧
      (cfft_engine.ctor sqrt cosf sinf M_PI (2 ^ m)).bitrev
        ((cfft_engine.ctor sqrt cosf sinf M_PI (2 ^ m)).bitrev i) = i) ∧
    (∀ i j, i < 2 ^ m → j < 2 ^ m →
      (cfft_engine.ctor sqrt cosf sinf M_PI (2 ^ m)).bitrev i
        = (cfft_engine.ctor sqrt cosf sinf M_PI (2 ^ m)).bitrev j → i = j) ∧
    (∀ j, j < 2 ^ m → ∃ i, i < 2 ^ m ∧
      (cfft_engine.ctor sqrt cosf sinf M_PI (2 ^ m)).bitrev i = j) := by
  have hbr := ctor_two_pow_bitrev sqrt cosf sinf M_PI m
  refine ⟨ctor_two_pow_logn sqrt cosf sinf M_PI m, ?_, ?_, ?_⟩
  · intro i hi
    refine ⟨?_, ?_, ?_⟩
    · intro b
      rw [hbr i hi, rev_testBit]
    · rw [hbr i hi]
      exact rev_lt m i
    · rw [hbr i hi, hbr _ (rev_lt m i), rev_rev m i hi]
  · intro i j hi hj h
    rw [hbr i hi, hbr j hj] at h
    rw [← rev_rev m i hi, ← rev_rev m j hj, h]
  · intro j hj
    refine ⟨rev m j, rev_lt m j, ?_⟩
    rw [hbr _ (rev_lt m j), rev_rev m j hj]

/-! ## The swaps of the permutation loop -/

/-- Every swap of the loop exchanges a cell `i < n` with the cell `bitrev[i] < i`. -/
theorem permute_swaps_mem {T : Type} (e : cfft_engine T) (p : Nat × Nat)
    (hp : p ∈ e.permute_swaps) : p.1 < e.n ∧ p.2 = e.bitrev p.1 ∧ p.2 < p.1 := by
  unfold cfft_engine.permute_swaps at hp
  have key := forLoop_induct
    (fun i0 (log : List (Nat × Nat)) => ∀ p, p ∈ log → p.1 < i0 ∧ p.2 = e.bitrev p.1 ∧ p.2 < p.1)
    e.n (fun i log =>
      let r := e.bitrev i
      if r < i then log ++ [(i, r)] else log) []
    (by
      intro p hp
      exact absurd hp (List.not_mem_nil p))
    (by
      intro i0 t _ hP p hp
      simp only [] at hp
      by_cases hlt : e.bitrev i0 < i0
      · rw [if_pos hlt, List.mem_append, List.mem_singleton] at hp
        rcases hp with hp | hp
        · obtain ⟨h1, h2, h3⟩ := hP p hp
          exact ⟨by omega, h2, h3⟩
        · rw [hp]
          exact ⟨Nat.lt_succ_self i0, rfl, hlt⟩
      · rw [if_neg hlt] at hp
        obtain ⟨h1, h2, h3⟩ := hP p hp
        exact ⟨by omega, h2, h3⟩)
  exact key p hp

/-- For a table that is an involution of `[0, n)`, the loop swaps each pair
`{i, bitrev[i]}` of distinct cells exactly once. -/
theorem permute_swaps_count {T : Type} (e : cfft_engine T)
    (hinv : ∀ i, i < e.n → e.bitrev i < e.n ∧ e.bitrev (e.bitrev i) = i) (i : Nat)
    (hi : i < e.n) (hne : e.bitrev i ≠ i) :
    List.countP (fun p => decide ((p.1 = i ∧ p.2 = e.bitrev i) ∨ (p.1 = e.bitrev i ∧ p.2 = i)))
      e.permute_swaps = 1 := by
  unfold cfft_engine.permute_swaps
  have key := forLoop_induct
    (fun i0 (log : List (Nat × Nat)) =>
      List.countP (fun p => decide ((p.1 = i ∧ p.2 = e.bitrev i) ∨ (p.1 = e.bitrev i ∧ p.2 = i)))
        log = if i < i0 ∧ e.bitrev i < i0 then 1 else 0)
    e.n (fun i log =>
      let r := e.bitrev i
      if r < i then log ++ [(i, r)] else log) []
    (by
      have c : ¬ (i < 0 ∧ e.bitrev i < 0) := by omega
      beta_reduce
      rw [if_neg c]
      rfl)
    (by
      intro i0 t hi0 hP
      obtain ⟨hr, hrr⟩ := hinv i0 hi0
      obtain ⟨hri, hrri⟩ := hinv i hi
      beta_reduce at hP ⊢
      simp only []
      by_cases hlt : e.bitrev i0 < i0
      · rw [if_pos hlt, List.countP_append, hP]
        by_cases hmem : i0 = i ∨ i0 = e.bitrev i
        · have hpred : ((i0 = i ∧ e.bitrev i0 = e.bitrev i) ∨ (i0 = e.bitrev i ∧ e.bitrev i0 = i)) := by
            rcases hmem with h | h
            · exact Or.inl ⟨h, by rw [h]⟩
            · exact Or.inr ⟨h, by rw [h, hrri]⟩
          have c1 : ¬ (i < i0 ∧ e.bitrev i < i0) := by
            rcases hmem with h | h <;> omega
          have c2 : i < i0 + 1 ∧ e.bitrev i < i0 + 1 := by
            rcases hmem with h | h
            · rw [h] at hlt
              omega
            · rw [h, hrri] at hlt
              omega
          rw [if_neg c1, if_pos c2]
          simp [hpred]
        · have hpred : ¬ ((i0 = i ∧ e.bitrev i0 = e.bitrev i) ∨ (i0 = e.bitrev i ∧ e.bitrev i0 = i)) := by
            rintro (h | h)
            · exact hmem (Or.inl h.1)
            · exact hmem (Or.inr h.1)
          have e1 : (i < i0 + 1 ∧ e.bitrev i < i0 + 1) ↔ (i < i0 ∧ e.bitrev i < i0) := by
            have h1 : i0 ≠ i := fun h => hmem (Or.inl h)
            have h2 : i0 ≠ e.bitrev i := fun h => hmem (Or.inr h)
            omega
          simp only [e1]
          simp [hpred]
      · rw [if_neg hlt, hP]
        have e1 : (i < i0 + 1 ∧ e.bitrev i < i0 + 1) ↔ (i < i0 ∧ e.bitrev i < i0) := by
          constructor
          · intro h
            have h1 : i0 ≠ i := by
              intro h1
              rw [h1] at hlt
              omega
            have h2 : i0 ≠ e.bitrev i := by
              intro h2
              rw [h2, hrri] at hlt
              omega
            omega
          · intro h
            omega
        simp only [e1])
  rw [key, if_pos ⟨hi, (hinv i hi).1⟩]

theorem ctor_two_pow_inv {T : Type} [Field T] (sqrt cosf sinf : T → T) (M_PI : T) (m : Nat)
    (i : Nat) (hi : i < (cfft_engine.ctor sqrt cosf sinf M_PI (2 ^ m)).n) :
    (cfft_engine.ctor sqrt cosf sinf M_PI (2 ^ m)).bitrev i
        < (cfft_engine.ctor sqrt cosf sinf M_PI (2 ^ m)).n ∧
    (cfft_engine.ctor sqrt cosf sinf M_PI (2 ^ m)).bitrev
        ((cfft_engine.ctor sqrt cosf sinf M_PI (2 ^ m)).bitrev i) = i := by
  rw [ctor_n] at hi ⊢
  rw [ctor_two_pow_bitrev _ _ _ _ m i hi, ctor_two_pow_bitrev _ _ _ _ m _ (rev_lt m i)]
  exact ⟨rev_lt m i, rev_rev m i hi⟩

/-- C14: for `n = 2^m` and every array `d`, the first loop of `inplace` leaves
`data[i] = d[bitrev[i]]` for every `i < n`; every swap it performs exchanges a
cell `i` with the cell `bitrev[i] < i`, and each pair `{i, bitrev[i]}` with
`i ≠ bitrev[i]` is swapped exactly once. -/
theorem cfft_permute_pairs {T : Type} [Field T] (sqrt cosf sinf : T → T) (M_PI : T) (m : Nat)
    (d : Nat → complex T) :
    (∀ i, i < 2 ^ m →
      (cfft_engine.ctor sqrt cosf sinf M_PI (2 ^ m)).permute d i
        = d ((cfft_engine.ctor sqrt cosf sinf M_PI (2 ^ m)).bitrev i)) ∧
    (∀ p, p ∈ (cfft_engine.ctor sqrt cosf sinf M_PI (2 ^ m)).permute_swaps →
      p.1 < 2 ^ m ∧ p.2 = (cfft_engine.ctor sqrt cosf sinf M_PI (2 ^ m)).bitrev p.1 ∧
      p.2 < p.1) ∧
    (∀ i, i < 2 ^ m → (cfft_engine.ctor sqrt cosf sinf M_PI (2 ^ m)).bitrev i ≠ i →
      List.countP (fun p => decide
          ((p.1 = i ∧ p.2 = (cfft_engine.ctor sqrt cosf sinf M_PI (2 ^ m)).bitrev i) ∨
           (p.1 = (cfft_engine.ctor sqrt cosf sinf M_PI (2 ^ m)).bitrev i ∧ p.2 = i)))
        (cfft_engine.ctor sqrt cosf sinf M_PI (2 ^ m)).permute_swaps = 1) := by
  refine ⟨?_, ?_, ?_⟩
  · intro i hi
    exact permute_spec _ d (ctor_two_pow_inv sqrt cosf sinf M_PI m) i hi
  · intro p hp
    exact permute_swaps_mem _ p hp
  · intro i hi hne
    exact permute_swaps_count _ (ctor_two_pow_inv sqrt cosf sinf M_PI m) i hi hne

/-! ## Streaming consistency of the boxcar filter -/

/-- One `run` step keeps the streaming invariant: the readable input is the
stream from the first unconsumed sample, as many elements were emitted as
consumed, and the `j`-th element emitted is the window average at `j`. -/
theorem lowpass_run_inv {T : Type} (K : Type) [AddCommMonoid T] [HMul T K T] [One K] [Div K]
    [NatCast K] (s : Nat → T) (f : naive_lowpass T) (c : Nat) (em : List T)
    (hin : ∀ t, t < f.inp.readable → f.inp.mem (f.inp.rd + t) = s (c + t))
    (hlen : em.length = c)
    (hem : ∀ j, j < em.length →
      em[j]? = some ((∑ t in Finset.range f.w, s (j + t)) * ((1 : K) / (f.w : K)))) :
    (∀ t, t < (naive_lowpass.run K f).inp.readable →
      (naive_lowpass.run K f).inp.mem ((naive_lowpass.run K f).inp.rd + t)
        = s (c + ((naive_lowpass.run K f).inp.rpos - f.inp.rpos) + t)) ∧
    (em ++ naive_lowpass.emitted K f).length
      = c + ((naive_lowpass.run K f).inp.rpos - f.inp.rpos) ∧
    (∀ j, j < (em ++ naive_lowpass.emitted K f).length →
      (em ++ naive_lowpass.emitted K f)[j]?
        = some ((∑ t in Finset.range f.w, s (j + t)) * ((1 : K) / (f.w : K)))) := by
  by_cases hshort : f.inp.readable < f.w
  · have hrun := naive_lowpass_run_short K f hshort
    have hemit : naive_lowpass.emitted K f = [] := by
      unfold naive_lowpass.emitted
      rw [hrun, Nat.sub_self]
      rfl
    rw [hemit, hrun, Nat.sub_self, List.append_nil, Nat.add_zero]
    exact ⟨hin, hlen, hem⟩
  · have hw : f.w ≤ f.inp.readable := Nat.le_of_not_lt hshort
    have hcnt : Min.min (f.inp.readable - f.w) f.out.writable ≤ f.inp.readable - f.w :=
      Nat.min_le_left _ _
    have hrp : (naive_lowpass.run K f).inp.rpos - f.inp.rpos
        = Min.min (f.inp.readable - f.w) f.out.writable := by
      rw [naive_lowpass_run_eq K f hw]
      simp
    have hwp : (naive_lowpass.run K f).out.wpos - f.out.wpos
        = Min.min (f.inp.readable - f.w) f.out.writable := by
      rw [naive_lowpass_run_eq K f hw]
      simp
    have hlen2 : (naive_lowpass.emitted K f).length
        = Min.min (f.inp.readable - f.w) f.out.writable := by
      unfold naive_lowpass.emitted
      rw [List.length_map, List.length_range, hwp]
    rw [hrp]
    refine ⟨?_, ?_, ?_⟩
    · intro t ht
      rw [naive_lowpass_run_eq K f hw] at ht ⊢
      unfold pipebuf.readable pipebuf.rd at *
      simp only [] at ht ⊢
      rw [Nat.add_assoc, hin _ (by omega), Nat.add_assoc]
    · rw [List.length_append, hlen, hlen2]
    · intro j hj
      rw [List.length_append, hlen2] at hj
      by_cases hjl : j < em.length
      · rw [List.getElem?_append_left hjl]
        exact hem j hjl
      · have hjl2 : em.length ≤ j := Nat.le_of_not_lt hjl
        rw [List.getElem?_append_right hjl2]
        unfold naive_lowpass.emitted
        have hi : j - em.length < Min.min (f.inp.readable - f.w) f.out.writable := by omega
        rw [List.getElem?_map, hwp, List.getElem?_range hi, Option.map_some']
        unfold pipebuf.wr
        rw [naive_lowpass_run_mem K f _ hi]
        congr 2
        apply Finset.sum_congr rfl
        intro t ht
        have ht2 : t < f.w := Finset.mem_range.mp ht
        unfold pipebuf.readable pipebuf.rd at *
        rw [Nat.add_assoc, hin _ (by omega)]
        congr 1
        omega

theorem naive_lowpass_run_w {T : Type} (K : Type) [Zero T] [Add T] [HMul T K T] [One K]
    [Div K] [NatCast K] (f : naive_lowpass T) : (naive_lowpass.run K f).w = f.w := by
  unfold naive_lowpass.run
  split_ifs <;> rfl

/-- The streaming invariant holds in every state reachable from a start state. -/
theorem lowpass_reach_inv {T : Type} (K : Type) [AddCommMonoid T] [HMul T K T] [One K] [Div K]
    [NatCast K] (s : Nat → T) (st0 st : lowpass_sys T) (hc : st0.consumed = 0)
    (he : st0.emitted = [])
    (hin : ∀ t, t < st0.f.inp.readable → st0.f.inp.mem (st0.f.inp.rd + t) = s t)
    (hreach : Relation.ReflTransGen (lowpass_step K s) st0 st) :
    st.f.w = st0.f.w ∧
    (∀ t, t < st.f.inp.readable → st.f.inp.mem (st.f.inp.rd + t) = s (st.consumed + t)) ∧
    st.emitted.length = st.consumed ∧
    (∀ j, j < st.emitted.length →
      st.emitted[j]?
        = some ((∑ t in Finset.range st0.f.w, s (j + t)) * ((1 : K) / (st0.f.w : K)))) := by
  induction hreach with
  | refl =>
    refine ⟨rfl, ?_, ?_, ?_⟩
    · intro t ht
      rw [hc, Nat.zero_add]
      exact hin t ht
    · rw [he, hc]
      rfl
    · intro j hj
      rw [he] at hj
      exact absurd hj (Nat.not_lt_zero j)
  | @tail st1 st2 _ hstep ih =>
    obtain ⟨hw, hi, hl, hem⟩ := ih
    cases hstep with
    | run =>
      rw [← hw] at hem
      have h := lowpass_run_inv K s st1.f st1.consumed st1.emitted hi hl hem
      rw [hw] at h
      exact ⟨by rw [naive_lowpass_run_w, hw], h.1, h.2.1, h.2.2⟩
    | env f2 hw2 hin2 =>
      exact ⟨by rw [hw2, hw], hin2, hl, hem⟩

/-- C16: streaming consistency of the boxcar filter. Start with nothing consumed
or emitted and the readable input holding the beginning of the stream `s`.
After any sequence of `naive_lowpass::run` invocations interleaved with
activity of the surroundings that keeps presenting `s` in order (appends to the
input, drains of the output), the `j`-th element ever emitted is
`(s[j] + ... + s[j+w-1]) * (1/w)`, however the data was split across
invocations. -/
theorem naive_lowpass_streaming {T : Type} (K : Type) [AddCommMonoid T] [Field K] [HMul T K T]
    (s : Nat → T) (st0 st : lowpass_sys T) (_hw : 1 ≤ st0.f.w) (hc : st0.consumed = 0)
    (he : st0.emitted = [])
    (hin : ∀ t, t < st0.f.inp.readable → st0.f.inp.mem (st0.f.inp.rd + t) = s t)
    (hreach : Relation.ReflTransGen (lowpass_step K s) st0 st) (j : Nat)
    (hj : j < st.emitted.length) :
    st.emitted[j]?
      = some ((∑ t in Finset.range st0.f.w, s (j + t)) * ((1 : K) / (st0.f.w : K))) :=
  (lowpass_reach_inv K s st0 st hc he hin hreach).2.2.2 j hj

theorem naive_lowpass_streaming_witness :
    1 ≤ exLowpassSys.f.w ∧
    (exLowpassSys.emitted ++ naive_lowpass.emitted ℚ exLowpassSys.f)[1]?
      = some ((∑ t in Finset.range exLowpassSys.f.w, (((1 + t : Nat) : ℚ) + 1))
          * ((1 : ℚ) / (exLowpassSys.f.w : ℚ))) := by
  have hlen : 1 < (exLowpassSys.emitted ++ naive_lowpass.emitted ℚ exLowpassSys.f).length := by
    unfold naive_lowpass.emitted
    rw [List.length_append, List.length_map, List.length_range,
      naive_lowpass_run_eq ℚ exLowpassSys.f (by decide)]
    decide
  exact ⟨by decide,
    naive_lowpass_streaming ℚ (fun t => (t : ℚ) + 1) exLowpassSys _ (by decide) rfl rfl
      (by
        intro t _
        simp [exLowpassSys, exLowpass, rampBuf, pipebuf.rd])
      (Relation.ReflTransGen.single (lowpass_step.run exLowpassSys)) 1 hlen⟩

/-! ## Index safety of the FFT -/

/-- A loop that only extends a list keeps a property of all its elements. -/
theorem forLoop_list_all {α : Type} (P : α → Prop) (n : Nat) (body : Nat → List α → List α)
    (acc0 : List α) (h0 : ∀ x, x ∈ acc0 → P x)
    (hstep : ∀ i, i < n → ∀ acc, (∀ x, x ∈ acc → P x) → ∀ x, x ∈ body i acc → P x) :
    ∀ x, x ∈ forLoop n body acc0 → P x :=
  forLoop_induct (fun _ acc => ∀ x, x ∈ acc → P x) n body acc0 h0
    (fun i acc hi hacc => hstep i hi acc hacc)

/-- The cells of a butterfly lie below `2^logn`. -/
theorem butterfly_index_lt (L i j k : Nat) (hi : i < L) (hj : j < 2 ^ (L - 1 - i))
    (hk : k < 2 ^ i) :
    j * 2 ^ i * 2 + 2 ^ i + k < 2 ^ L ∧ j * 2 ^ i * 2 + k < 2 ^ L ∧
    k * 2 ^ (L - 1 - i) < 2 ^ L := by
  have hL : 2 ^ L = 2 ^ (L - 1 - i) * (2 ^ i * 2) := by
    rw [← pow_succ, ← pow_add]
    congr 1
    omega
  have h1 : (j + 1) * (2 ^ i * 2) ≤ 2 ^ (L - 1 - i) * (2 ^ i * 2) :=
    Nat.mul_le_mul_right _ hj
  have h2 : (j + 1) * (2 ^ i * 2) = j * 2 ^ i * 2 + 2 ^ i * 2 := by ring
  have h3 : k * 2 ^ (L - 1 - i) < 2 ^ i * 2 ^ (L - 1 - i) :=
    Nat.mul_lt_mul_of_pos_right hk (Nat.two_pow_pos _)
  have h4 : 2 ^ (L - 1 - i) * (2 ^ i * 2) = 2 ^ i * 2 ^ (L - 1 - i) * 2 := by ring
  refine ⟨by omega, by omega, by omega⟩

theorem two_pow_log2_loop_le (n : Nat) (hn : 1 ≤ n) : 2 ^ log2_loop n 0 ≤ n := by
  rw [log2_loop_eq_log, Nat.zero_add]
  exact Nat.pow_log_le_self 2 (by omega)

theorem mem_pair {x a b : Nat} (h : x ∈ [a, b]) : x = a ∨ x = b := by
  simpa using h

/-- C17: index safety of the FFT for every size `n ≥ 1`, power of two or not:
every cell of `bitrev`, `omega`, `omega_rev` accessed by the constructor, every
cell of `data` accessed by `inplace` (`i`, `bitrev[i]`, `p+k`, `q+k`) and every
table cell accessed by `inplace` (`bitrev[i]`, `om[k*dom]`) has an index below
`n`. -/
theorem cfft_index_safety {T : Type} [Field T] (sqrt cosf sinf : T → T) (M_PI : T) (n : Nat)
    (hn : 1 ≤ n) :
    (∀ x, x ∈ cfft_engine.ctor_indices n → x < n) ∧
    (∀ x, x ∈ (cfft_engine.ctor sqrt cosf sinf M_PI n).data_indices → x < n) ∧
    (∀ x, x ∈ (cfft_engine.ctor sqrt cosf sinf M_PI n).table_indices → x < n) := by
  have hL := two_pow_log2_loop_le n hn
  refine ⟨?_, ?_, ?_⟩
  · unfold cfft_engine.ctor_indices
    apply forLoop_list_all
    · apply forLoop_list_all
      · intro x hx
        exact absurd hx (List.not_mem_nil x)
      · intro i hi acc hacc
        apply forLoop_list_all
        · intro x hx
          rcases List.mem_append.mp hx with h | h
          · exact hacc x h
          · rw [List.mem_singleton.mp h]
            exact hi
        · intro b _ acc2 hacc2 x hx
          rcases List.mem_append.mp hx with h | h
          · exact hacc2 x h
          · rw [List.mem_singleton.mp h]
            exact hi
    · intro i hi acc hacc x hx
      rcases List.mem_append.mp hx with h | h
      · exact hacc x h
      · rcases mem_pair h with h | h <;> rw [h] <;> exact hi
  · unfold cfft_engine.data_indices
    simp only [ctor_n, ctor_logn, Nat.one_shiftLeft]
    apply forLoop_list_all
    · apply forLoop_list_all
      · apply forLoop_list_all
        · intro x hx
          exact absurd hx (List.not_mem_nil x)
        · intro i hi acc hacc x hx
          by_cases hlt : (cfft_engine.ctor sqrt cosf sinf M_PI n).bitrev i < i
          · rw [if_pos hlt] at hx
            rcases List.mem_append.mp hx with h | h
            · exact hacc x h
            · rcases mem_pair h with h | h
              · rw [h]
                exact hi
              · rw [h]
                omega
          · rw [if_neg hlt] at hx
            exact hacc x hx
      · intro i hi acc hacc
        apply forLoop_list_all _ _ _ _ hacc
        intro j hj acc2 hacc2
        apply forLoop_list_all _ _ _ _ hacc2
        intro k hk acc3 hacc3 x hx
        have hb := butterfly_index_lt (log2_loop n 0) i j k hi hj hk
        rcases List.mem_append.mp hx with h | h
        · exact hacc3 x h
        · rcases mem_pair h with h | h <;> rw [h] <;> omega
    · intro i hi acc hacc x hx
      rcases List.mem_append.mp hx with h | h
      · exact hacc x h
      · rw [List.mem_singleton.mp h]
        exact hi
  · unfold cfft_engine.table_indices
    simp only [ctor_n, ctor_logn, Nat.one_shiftLeft]
    apply forLoop_list_all
    · apply forLoop_list_all
      · intro x hx
        exact absurd hx (List.not_mem_nil x)
      · intro i hi acc hacc x hx
        rcases List.mem_append.mp hx with h | h
        · exact hacc x h
        · rw [List.mem_singleton.mp h]
          exact hi
    · intro i hi acc hacc
      apply forLoop_list_all _ _ _ _ hacc
      intro j hj acc2 hacc2
      apply forLoop_list_all _ _ _ _ hacc2
      intro k hk acc3 hacc3 x hx
      have hb := butterfly_index_lt (log2_loop n 0) i j k hi hj hk
      rcases List.mem_append.mp hx with h | h
      · exact hacc3 x h
      · rw [List.mem_singleton.mp h]
        omega

theorem cfft_index_safety_witness :
    (1 : Nat) ≤ 6 ∧ (∀ x, x ∈ cfft_engine.ctor_indices 6 → x < 6) ∧
    (∀ x, x ∈ (cfft_engine.ctor Real.sqrt Real.cos Real.sin Real.pi 6).data_indices → x < 6) ∧
    (∀ x, x ∈ (cfft_engine.ctor Real.sqrt Real.cos Real.sin Real.pi 6).table_indices →
      x < 6) :=
  ⟨by norm_num, cfft_index_safety Real.sqrt Real.cos Real.sin Real.pi 6 (by norm_num)⟩

/-! ## Read safety of the boxcar filter -/

/-- C18: for every window width `w ≥ 1` and every buffer state,
`naive_lowpass::run` evaluates `readable - w` only with `w ≤ readable` (no
unsigned underflow), every input offset it reads is below `readable`, and every
output offset it writes is below `writable`. -/
theorem naive_lowpass_run_safe {T : Type} (f : naive_lowpass T) (_hw : 1 ≤ f.w) :
    (∀ p, p ∈ f.subtractions → p.2 ≤ p.1) ∧
    (∀ x, x ∈ f.read_offsets → x < f.inp.readable) ∧
    (∀ x, x ∈ f.write_offsets → x < f.out.writable) := by
  refine ⟨?_, ?_, ?_⟩
  · intro p hp
    unfold naive_lowpass.subtractions at hp
    by_cases h : f.inp.readable < f.w
    · rw [if_pos h] at hp
      exact absurd hp (List.not_mem_nil p)
    · rw [if_neg h, List.mem_singleton] at hp
      rw [hp]
      exact Nat.le_of_not_lt h
  · unfold naive_lowpass.read_offsets
    by_cases h : f.inp.readable < f.w
    · rw [if_pos h]
      intro x hx
      exact absurd hx (List.not_mem_nil x)
    · rw [if_neg h]
      simp only [min_eq_nat_min]
      have hc : Min.min (f.inp.readable - f.w) f.out.writable ≤ f.inp.readable - f.w :=
        Nat.min_le_left _ _
      apply forLoop_list_all
      · intro x hx
        exact absurd hx (List.not_mem_nil x)
      · intro j hj acc hacc
        apply forLoop_list_all _ _ _ _ hacc
        intro i hi acc2 hacc2 x hx
        rcases List.mem_append.mp hx with h2 | h2
        · exact hacc2 x h2
        · rw [List.mem_singleton.mp h2]
          omega
  · unfold naive_lowpass.write_offsets
    by_cases h : f.inp.readable < f.w
    · rw [if_pos h]
      intro x hx
      exact absurd hx (List.not_mem_nil x)
    · rw [if_neg h]
      simp only [min_eq_nat_min]
      have hc : Min.min (f.inp.readable - f.w) f.out.writable ≤ f.out.writable :=
        Nat.min_le_right _ _
      apply forLoop_list_all
      · intro x hx
        exact absurd hx (List.not_mem_nil x)
      · intro j hj acc hacc x hx
        rcases List.mem_append.mp hx with h2 | h2
        · exact hacc x h2
        · rw [List.mem_singleton.mp h2]
          omega

theorem naive_lowpass_run_safe_witness :
    1 ≤ exLowpass.w ∧ (∀ p, p ∈ exLowpass.subtractions → p.2 ≤ p.1) ∧
    (∀ x, x ∈ exLowpass.read_offsets → x < exLowpass.inp.readable) ∧
    (∀ x, x ∈ exLowpass.write_offsets → x < exLowpass.out.writable) :=
  ⟨by decide, naive_lowpass_run_safe exLowpass (by decide)⟩

/-! ## `cconverter::run` on an integer output type -/

theorem tdiv_bound_nonneg (a d : ℤ) (ha : 0 ≤ a) (hd : 0 < d) :
    |((Int.tdiv a d : ℤ) : ℚ) - (a : ℚ) / (d : ℚ)| < 1 := by
  have h1 := Int.tdiv_add_tmod a d
  have h2 := Int.tmod_lt_of_pos a hd
  have h3 := Int.tmod_nonneg d ha
  have hdq : (0 : ℚ) < d := by exact_mod_cast hd
  have e : (a : ℚ) = d * (Int.tdiv a d : ℤ) + (Int.tmod a d : ℤ) := by exact_mod_cast h1.symm
  have h2q : ((Int.tmod a d : ℤ) : ℚ) < d := by exact_mod_cast h2
  have h3q : (0 : ℚ) ≤ (Int.tmod a d : ℤ) := by exact_mod_cast h3
  have key : ((Int.tdiv a d : ℤ) : ℚ) - (a : ℚ) / (d : ℚ)
      = - (((Int.tmod a d : ℤ) : ℚ) / d) := by
    rw [e]
    field_simp
    ring
  rw [key, abs_neg, abs_of_nonneg (div_nonneg h3q (le_of_lt hdq))]
  exact (div_lt_one hdq).mpr h2q

/-- Truncating division is within less than `1` of the exact quotient. -/
theorem tdiv_bound (a d : ℤ) (hd : d ≠ 0) :
    |((Int.tdiv a d : ℤ) : ℚ) - (a : ℚ) / (d : ℚ)| < 1 := by
  rcases lt_or_gt_of_ne hd with hneg | hpos
  · rcases le_or_lt 0 a with ha | ha
    · have h := tdiv_bound_nonneg a (-d) ha (by omega)
      rw [Int.tdiv_neg] at h
      push_cast at h
      have e : -((Int.tdiv a d : ℤ) : ℚ) - (a : ℚ) / -(d : ℚ)
          = -(((Int.tdiv a d : ℤ) : ℚ) - (a : ℚ) / (d : ℚ)) := by
        rw [div_neg]
        ring
      rw [e, abs_neg] at h
      exact h
    · have h := tdiv_bound_nonneg (-a) (-d) (by omega) (by omega)
      rw [Int.tdiv_neg, Int.neg_tdiv, neg_neg] at h
      push_cast at h
      rw [neg_div_neg_eq] at h
      exact h
  · rcases le_or_lt 0 a with ha | ha
    · exact tdiv_bound_nonneg a d ha hpos
    · have h := tdiv_bound_nonneg (-a) d (by omega) hpos
      rw [Int.neg_tdiv] at h
      push_cast at h
      have e : -((Int.tdiv a d : ℤ) : ℚ) - -(a : ℚ) / (d : ℚ)
          = -(((Int.tdiv a d : ℤ) : ℚ) - (a : ℚ) / (d : ℚ)) := by
        rw [neg_div]
        ring
      rw [e, abs_neg] at h
      exact h

theorem cint_formula (x : cint) (Zin Zout Gn Gd : Int) :
    (((Zout : cint) + (x - (Zin : cint)) * (Gn : cint) / (Gd : cint)) : cint).val
      = Zout + Int.tdiv ((x.val - Zin) * Gn) Gd := rfl

theorem tdiv_ne_zero (a d : ℤ) (hd : d ≠ 0) (h : d.natAbs ≤ a.natAbs) : Int.tdiv a d ≠ 0 := by
  intro h0
  have h1 := Int.natAbs_tdiv a d
  rw [h0] at h1
  have h2 : 0 < d.natAbs := Int.natAbs_pos.mpr hd
  have h3 : 0 < a.natAbs / d.natAbs := Nat.div_pos h h2
  have h4 : a.natAbs / d.natAbs = 0 := h1.symm
  omega

/-- The component stored by `cconverter::run` on the output type `cint`. -/
theorem cconverter_run_mem_int {Tin : Type} (cast : Tin → cint) (Zin Zout Gn Gd : Int)
    (c : cconverter Tin cint) (i : Nat) (hi : i < Min.min c.inp.readable c.out.writable) :
    ((cconverter.run cast Zin Zout Gn Gd c).out.mem (c.out.wr + i)).re.val
      = Zout + Int.tdiv (((cast (c.inp.mem (c.inp.rd + i)).re).val - Zin) * Gn) Gd ∧
    ((cconverter.run cast Zin Zout Gn Gd c).out.mem (c.out.wr + i)).im.val
      = Zout + Int.tdiv (((cast (c.inp.mem (c.inp.rd + i)).im).val - Zin) * Gn) Gd := by
  unfold pipebuf.wr pipebuf.rd
  rw [cconverter_run_mem cast Zin Zout Gn Gd c i hi]
  exact ⟨cint_formula _ _ _ _ _, cint_formula _ _ _ _ _⟩

/-- C19: on an integer output type (no overflow), `cconverter::run` computes each
component as `Zout + ((x - Zin) * Gn) / Gd`, multiplying by `Gn` before one
division by `Gd` that truncates toward zero. For `Gd ≠ 0` the result differs
from the exact rational `Zout + (x - Zin) * Gn / Gd` by less than `1`, and the
scaled term is non-zero as soon as `|(x - Zin) * Gn| ≥ |Gd|`, so a gain with
`|Gn| < |Gd|` does not collapse to zero. -/
theorem cconverter_run_int {Tin : Type} (cast : Tin → cint) (Zin Zout Gn Gd : Int)
    (c : cconverter Tin cint) (hGd : Gd ≠ 0) (i : Nat)
    (hi : i < Min.min c.inp.readable c.out.writable) :
    (((cconverter.run cast Zin Zout Gn Gd c).out.mem (c.out.wr + i)).re.val
        = Zout + Int.tdiv (((cast (c.inp.mem (c.inp.rd + i)).re).val - Zin) * Gn) Gd ∧
      ((cconverter.run cast Zin Zout Gn Gd c).out.mem (c.out.wr + i)).im.val
        = Zout + Int.tdiv (((cast (c.inp.mem (c.inp.rd + i)).im).val - Zin) * Gn) Gd) ∧
    (|((((cconverter.run cast Zin Zout Gn Gd c).out.mem (c.out.wr + i)).re.val : Int) : ℚ)
        - ((Zout : ℚ) + (((cast (c.inp.mem (c.inp.rd + i)).re).val : ℚ) - (Zin : ℚ))
            * (Gn : ℚ) / (Gd : ℚ))| < 1 ∧
      |((((cconverter.run cast Zin Zout Gn Gd c).out.mem (c.out.wr + i)).im.val : Int) : ℚ)
        - ((Zout : ℚ) + (((cast (c.inp.mem (c.inp.rd + i)).im).val : ℚ) - (Zin : ℚ))
            * (Gn : ℚ) / (Gd : ℚ))| < 1) ∧
    (Gd.natAbs ≤ (((cast (c.inp.mem (c.inp.rd + i)).re).val - Zin) * Gn).natAbs →
      ((cconverter.run cast Zin Zout Gn Gd c).out.mem (c.out.wr + i)).re.val ≠ Zout) ∧
    (Gd.natAbs ≤ (((cast (c.inp.mem (c.inp.rd + i)).im).val - Zin) * Gn).natAbs →
      ((cconverter.run cast Zin Zout Gn Gd c).out.mem (c.out.wr + i)).im.val ≠ Zout) := by
  obtain ⟨hre, him⟩ := cconverter_run_mem_int cast Zin Zout Gn Gd c i hi
  refine ⟨⟨hre, him⟩, ⟨?_, ?_⟩, ?_, ?_⟩
  · rw [hre]
    have h := tdiv_bound (((cast (c.inp.mem (c.inp.rd + i)).re).val - Zin) * Gn) Gd hGd
    push_cast at h ⊢
    rw [add_sub_add_left_eq_sub]
    exact h
  · rw [him]
    have h := tdiv_bound (((cast (c.inp.mem (c.inp.rd + i)).im).val - Zin) * Gn) Gd hGd
    push_cast at h ⊢
    rw [add_sub_add_left_eq_sub]
    exact h
  · intro h
    rw [hre]
    have := tdiv_ne_zero _ Gd hGd h
    omega
  · intro h
    rw [him]
    have := tdiv_ne_zero _ Gd hGd h
    omega

theorem cconverter_run_int_witness :
    (2 : Int) ≠ 0 ∧ 1 < Min.min exIntConverter.inp.readable exIntConverter.out.writable ∧
    ((cconverter.run (fun z => (⟨z⟩ : cint)) 0 10 1 2 exIntConverter).out.mem
        (exIntConverter.out.wr + 1)).re.val = 10 + 2 ∧
    ((cconverter.run (fun z => (⟨z⟩ : cint)) 0 10 1 2 exIntConverter).out.mem
        (exIntConverter.out.wr + 1)).im.val = 10 + 3 := by
  have h := (cconverter_run_int (fun z => (⟨z⟩ : cint)) 0 10 1 2 exIntConverter (by decide) 1
    (by decide)).1
  refine ⟨by decide, by decide, ?_, ?_⟩
  · rw [h.1]
    decide
  · rw [h.2]
    decide

end leansdr
